import Mathlib

/-!
# Verification of `data/util/classes/NumberTag.py`

A shallow embedding of the number-normalization and number-tagging module.
Strings are modelled as Lean `String`s (lists of characters); Python's
`str.split()` / `" ".join` / `float()` / `re.sub` of the one fixed pattern
used by the module are modelled by executable Lean functions over ASCII
character data (the repository's data is ASCII; Python's Unicode categories
are modelled by their ASCII restrictions).
-/

/-- ASCII decimal digit, the model of the regex class `\d` (ASCII restriction). -/
def isDigitA (c : Char) : Bool := '0' ≤ c && c ≤ '9'

/-- ASCII word character, the model of the regex class `\w` used by the word
boundary `\b` (ASCII restriction): letter, digit or underscore. -/
def isWordA (c : Char) : Bool := c.isAlphanum || c == '_'

/-- ASCII whitespace recognised by Python's `str.split()` (ASCII restriction):
space, tab, newline, vertical tab, form feed, carriage return. -/
def isPySpace (c : Char) : Bool :=
  c == ' ' || c == '\t' || c == '\n' || c == '\x0b' || c == '\x0c' || c == '\r'

/-- Helper for `pySplit`: scans the characters, `acc` holds the characters of
the word currently being read, in reverse. -/
def splitAux : List Char → List Char → List String
  | [], acc => if acc.isEmpty then [] else [String.mk acc.reverse]
  | c :: rest, acc =>
    if isPySpace c then
      if acc.isEmpty then splitAux rest [] else String.mk acc.reverse :: splitAux rest []
    else splitAux rest (c :: acc)

/-- Model of Python's `str.split()` with no separator argument: split on runs
of whitespace, dropping empty words and leading/trailing whitespace. -/
def pySplit (s : String) : List String := splitAux s.data []

/-- Model of Python's `" ".join(words)`. -/
def joinWords : List String → String
  | [] => ""
  | [w] => w
  | w :: ws => w ++ " " ++ joinWords ws

/-! ## The number normalizer

`_normalize_numbers` applies `re.sub(r"\.(\d*?)0+\b", ...)`: every literal dot
followed by a digit run whose maximal trailing-zero suffix is nonempty and
ends at a word boundary has that trailing-zero suffix stripped; when the whole
digit run is zeros, the dot is removed as well.  `normCore` is a one-pass
scanner implementing exactly this; the state `some digs` means the scanner
has consumed a dot and then the digits `digs` (held in reverse). -/

/-- Strip the maximal run of `'0'` from the head of `digs` (`digs` is the
digit run in reverse, so this strips the trailing zeros of the run), then
emit the replacement text `".{m[1]}"`, empty when no digits remain. -/
def dotEmit (digs : List Char) : List Char :=
  let a := (digs.dropWhile (fun c => c == '0')).reverse
  if a.isEmpty then [] else '.' :: a

/-- One-pass scanner for `re.sub(r"\.(\d*?)0+\b", ...)`.  The second argument
is `none` when scanning ordinary text and `some digs` when a dot and the
(reversed) digit run `digs` after it have been consumed.  A match requires the
run to end in `'0'` and the next character to fail `\w` (or the string to
end); on a match the trailing zeros are stripped, otherwise the consumed text
is emitted unchanged.  The scan resumes after the match, exactly as `re.sub`
resumes after each non-overlapping match. -/
def normCore : List Char → Option (List Char) → List Char
  | [], none => []
  | [], some digs => if digs.head? == some '0' then dotEmit digs else '.' :: digs.reverse
  | c :: rest, none =>
    if c == '.' then normCore rest (some []) else c :: normCore rest none
  | c :: rest, some digs =>
    if isDigitA c then normCore rest (some (c :: digs))
    else
      let P := if digs.head? == some '0' && !isWordA c then dotEmit digs
               else '.' :: digs.reverse
      if c == '.' then P ++ normCore rest (some [])
      else P ++ c :: normCore rest none

/-- Model of `_normalize_numbers`: remove trailing zeros from decimal places. -/
def _normalize_numbers (s : String) : String := String.mk (normCore s.data none)

/-! ## Model of Python's `float()` test

`__map_numbers` treats a word as numeric exactly when `float(word)` succeeds.
Split words contain no whitespace, so the grammar is: an optional sign, then
`inf`/`infinity`/`nan` case-insensitively, or a decimal mantissa
(`digits [. [digits]]` or `. digits`) with an optional exponent
(`(e|E) [sign] digits`); digit groups may contain underscores between
digits. -/

/-- Consume the continuation `(["_"] digit)*` of a digit group. -/
def digitpartRest : List Char → List Char
  | '_' :: c :: rest => if isDigitA c then digitpartRest rest else '_' :: c :: rest
  | c :: rest => if isDigitA c then digitpartRest rest else c :: rest
  | [] => []

/-- Consume a digit group `digit (["_"] digit)*`; `none` when no leading digit. -/
def parseDigitpart : List Char → Option (List Char)
  | c :: rest => if isDigitA c then some (digitpartRest rest) else none
  | [] => none

/-- Strip one optional leading sign. -/
def stripSign : List Char → List Char
  | c :: rest => if c == '+' || c == '-' then rest else c :: rest
  | [] => []

/-- Accept an optional exponent part filling the rest of the word. -/
def parseExp : List Char → Bool
  | [] => true
  | c :: rest =>
    if c == 'e' || c == 'E' then
      match parseDigitpart (stripSign rest) with
      | some [] => true
      | _ => false
    else false

/-- Consume the mantissa: `digits [. [digits]]` or `. digits`. -/
def parseMantissa (l : List Char) : Option (List Char) :=
  match parseDigitpart l with
  | some rest =>
    match rest with
    | '.' :: rest2 =>
      match parseDigitpart rest2 with
      | some rest3 => some rest3
      | none => some rest2
    | _ => some rest
  | none =>
    match l with
    | '.' :: rest2 => parseDigitpart rest2
    | [] => none
    | _ :: _ => none

/-- Model of `float(word)` succeeding, for whitespace-free words. -/
def pyFloat (w : String) : Bool :=
  let l := stripSign w.data
  let low := l.map Char.toLower
  if low == "inf".data || low == "infinity".data || low == "nan".data then true
  else
    match parseMantissa l with
    | some rest => parseExp rest
    | none => false

/-! ## The `NumberTag` class -/

/-- The tag alphabet `_TAGS = ['x', 'y', 'z', 'j', 'q', 'v', 'w', 'r']`. -/
def _TAGS : List String := ["x", "y", "z", "j", "q", "v", "w", "r"]

/-- The tag `f"<{_TAGS[n]}>"` for index `n`; `none` models the `IndexError`
raised when the alphabet is exhausted. -/
def tagKey? (n : Nat) : Option String := (_TAGS.get? n).map (fun t => "<" ++ t ++ ">")

/-- The error taxonomy of the module: the alphabet-exhaustion failure raised
during construction (in the source, the `IndexError` of `_TAGS[len(lookup_dict)]`,
which the code comment singles out as the intended failure signal). -/
inductive TagError where
  | alphabetExhausted
  deriving DecidableEq

/-- First loop of `__map_numbers`: scan the sentence words left to right;
each word accepted by `float` is replaced by the tag of index
`len(lookup_dict)` and the pair `tag ↦ word` is appended to the (ordered)
lookup dict; the alphabet running out is the construction failure. -/
def tagSentence : List String → List (String × String) →
    Except TagError (List String × List (String × String))
  | [], lookup => .ok ([], lookup)
  | w :: ws, lookup =>
    if pyFloat w then
      match tagKey? lookup.length with
      | none => .error .alphabetExhausted
      | some key =>
        match tagSentence ws (lookup ++ [(key, w)]) with
        | .ok (rest, lk) => .ok (key :: rest, lk)
        | .error e => .error e
    else
      match tagSentence ws lookup with
      | .ok (rest, lk) => .ok (w :: rest, lk)
      | .error e => .error e

/-- Python dict assignment `d[k] = v` on an ordered association list:
overwrite in place when the key is present, else append. -/
def dictInsert (d : List (String × String)) (k v : String) : List (String × String) :=
  if d.any (fun p => p.1 == k) then
    d.map (fun p => if p.1 == k then (k, v) else p)
  else d ++ [(k, v)]

/-- The inverted dict `{ v: k for k, v in lookup_dict.items() }`: iterate the
lookup dict in insertion order, later pairs overwriting earlier ones. -/
def buildAdjust (lookup : List (String × String)) : List (String × String) :=
  lookup.foldl (fun d p => dictInsert d p.2 p.1) []

/-- Second loop of `__map_numbers`: scan the equation words; a word that is a
key of the inverted dict is replaced by its tag and the entry is deleted
(`del adjust_dict[word]`, modelled by erasing the matching entry). -/
def tagEquation : List String → List (String × String) → List String
  | [], _ => []
  | w :: ws, adj =>
    match adj.find? (fun p => p.1 == w) with
    | some p => p.2 :: tagEquation ws (adj.eraseP (fun q => q.1 == w))
    | none => w :: tagEquation ws adj

/-- The state owned by a constructed `NumberTag` instance. -/
structure NumberTag where
  original_sentence : String
  original_equation : String
  tagged_sentence : String
  tagged_equation : String
  lookup_table : List (String × String)
  deriving DecidableEq

/-- Constructor `NumberTag.__init__`: normalize both inputs, then run `__map_numbers`;
construction either fully succeeds or fails with the exhaustion error. -/
def NumberTag.mk? (sentence equation : String) : Except TagError NumberTag :=
  let os := _normalize_numbers sentence
  let oe := _normalize_numbers equation
  match tagSentence (pySplit os) [] with
  | .error e => .error e
  | .ok (sl, lookup) =>
    .ok ⟨os, oe, joinWords sl, joinWords (tagEquation (pySplit oe) (buildAdjust lookup)),
         lookup⟩

/-- Accessor `get_originals`. -/
def NumberTag.get_originals (nt : NumberTag) : String × String :=
  (nt.original_sentence, nt.original_equation)

/-- Accessor `get_masked`. -/
def NumberTag.get_masked (nt : NumberTag) : String × String :=
  (nt.tagged_sentence, nt.tagged_equation)

/-- Method `unmask_sentence`: split on whitespace, replace any word that is a key of
the lookup table by its value, rejoin with single spaces. -/
def NumberTag.unmask_sentence (nt : NumberTag) (s : String) : String :=
  joinWords ((pySplit s).map (fun w =>
    match nt.lookup_table.find? (fun p => p.1 == w) with
    | some p => p.2
    | none => w))

/-! ### Sanity: the doctests of the source file -/

/-- The instance built by the class doctest. -/
def exNT : NumberTag :=
  ⟨"What is 123 added to 1.5 ?", "x = 123 + 1.5",
   "What is <x> added to <y> ?", "x = <x> + <y>",
   [("<x>", "123"), ("<y>", "1.5")]⟩

/-- Doctest: `NumberTag("What is 123.0 added to 1.5 ?", "x = 123.0 + 1.5")`. -/
theorem exNT_mk :
    NumberTag.mk? "What is 123.0 added to 1.5 ?" "x = 123.0 + 1.5" = .ok exNT := rfl

/-- Doctest of `_normalize_numbers`. -/
theorem doctest_normalize :
    _normalize_numbers "123.0001" = "123.0001" ∧ _normalize_numbers "123.000" = "123" ∧
    _normalize_numbers "12.10" = "12.1" := ⟨rfl, rfl, rfl⟩

/-- Doctest: `unmask_sentence` on the masked sentence. -/
theorem doctest_unmask :
    exNT.unmask_sentence "What is <x> added to <y> ?" = "What is 123 added to 1.5 ?" := rfl

/-! ## Regex semantics of `re.sub(r"\.(\d*?)0+\b", ...)`

`normRe` states the substitution the way the regex reads: at each literal dot,
look at the maximal digit run following it; the lazy group `\d*?` together
with the greedy `0+` anchored at the word boundary `\b` matches exactly when
the run ends in a zero and the character after the run is not a word
character (there is no word boundary between two digits), taking the maximal
trailing-zero suffix; scanning resumes after the match.  `normRe` is proved
equal to the scanner `normCore` below. -/

/-- Test for `\b`: true exactly when the position before this suffix is a word boundary
(the previous character is a digit). -/
def boundaryOk : List Char → Bool
  | [] => true
  | c :: _ => !isWordA c

/-- Strip the maximal trailing-zero suffix of a digit run. -/
def dropTrailingZeros (run : List Char) : List Char :=
  (run.reverse.dropWhile (fun c => c == '0')).reverse

/-- The replacement `f".{m[1]}" if len(m[1]) else ""` for a matched run. -/
def emitRun (run : List Char) : List Char :=
  if (dropTrailingZeros run).isEmpty then [] else '.' :: dropTrailingZeros run

theorem length_dropWhile_le (p : Char → Bool) (l : List Char) :
    (l.dropWhile p).length ≤ l.length := by
  induction l with
  | nil => simp [List.dropWhile]
  | cons a l ih =>
    simp only [List.dropWhile]
    split
    · exact Nat.le_succ_of_le ih
    · simp

/-- The substitution, stated by recursion on the leftmost match. -/
def normRe : List Char → List Char
  | [] => []
  | c :: rest =>
    if c == '.' then
      if (rest.takeWhile isDigitA).getLast? == some '0' &&
          boundaryOk (rest.dropWhile isDigitA) then
        emitRun (rest.takeWhile isDigitA) ++ normRe (rest.dropWhile isDigitA)
      else '.' :: normRe rest
    else c :: normRe rest
  termination_by l => l.length
  decreasing_by
    · exact Nat.lt_succ_of_le (length_dropWhile_le _ _)
    · exact Nat.lt_succ_self _
    · exact Nat.lt_succ_self _


theorem takeWhile_all (p : Char → Bool) (l : List Char)
    (h : ∀ c ∈ l, p c = true) : l.takeWhile p = l := by
  induction l with
  | nil => simp
  | cons a l ih =>
    rw [List.takeWhile_cons_of_pos (h a (by simp))]
    exact congrArg (fun t => a :: t) (ih (fun c hc => h c (List.mem_cons_of_mem a hc)))

theorem dropWhile_all (p : Char → Bool) (l : List Char)
    (h : ∀ c ∈ l, p c = true) : l.dropWhile p = [] := by
  induction l with
  | nil => simp
  | cons a l ih =>
    rw [List.dropWhile_cons_of_pos (h a (by simp))]
    exact ih (fun c hc => h c (List.mem_cons_of_mem a hc))

theorem takeWhile_append_all (p : Char → Bool) (l1 l2 : List Char)
    (h : ∀ c ∈ l1, p c = true) : (l1 ++ l2).takeWhile p = l1 ++ l2.takeWhile p := by
  induction l1 with
  | nil => simp
  | cons a l ih =>
    rw [List.cons_append, List.takeWhile_cons_of_pos (h a (by simp))]
    exact congrArg (fun t => a :: t) (ih (fun c hc => h c (List.mem_cons_of_mem a hc)))

theorem dropWhile_append_all (p : Char → Bool) (l1 l2 : List Char)
    (h : ∀ c ∈ l1, p c = true) : (l1 ++ l2).dropWhile p = l2.dropWhile p := by
  induction l1 with
  | nil => simp
  | cons a l ih =>
    rw [List.cons_append, List.dropWhile_cons_of_pos (h a (by simp))]
    exact ih (fun c hc => h c (List.mem_cons_of_mem a hc))

/-- The head of `l.dropWhile p` fails `p`. -/
theorem head_dropWhile_false (p : Char → Bool) :
    ∀ (l : List Char) (c : Char), (l.dropWhile p).head? = some c → p c = false := by
  intro l
  induction l with
  | nil => intro c h; simp [List.dropWhile] at h
  | cons a l ih =>
    intro c h
    by_cases hp : p a = true
    · rw [List.dropWhile_cons_of_pos hp] at h; exact ih c h
    · rw [List.dropWhile_cons_of_neg hp] at h
      simp only [List.head?_cons, Option.some.injEq] at h
      subst h
      exact Bool.eq_false_iff.mpr hp

/-- A digit is not a dot. -/
theorem digit_ne_dot (c : Char) (h : isDigitA c = true) : (c == '.') = false := by
  have hne : c ≠ '.' := by intro he; subst he; exact absurd h (by decide)
  exact beq_eq_false_iff_ne.mpr hne

/-- The emitter `dotEmit` on the reversed run agrees with `emitRun` on the run. -/
theorem dotEmit_eq_emitRun (digs : List Char) : dotEmit digs = emitRun digs.reverse := by
  simp [dotEmit, emitRun, dropTrailingZeros]

/-- All-digit text contains no dot, so the substitution passes over it. -/
theorem normRe_digits_append (ds m : List Char) (h : ∀ c ∈ ds, isDigitA c = true) :
    normRe (ds ++ m) = ds ++ normRe m := by
  induction ds with
  | nil => simp
  | cons d ds ih =>
    rw [List.cons_append]
    rw [normRe]
    rw [if_neg (by simp [digit_ne_dot d (h d (by simp))])]
    exact congrArg (fun t => d :: t)
      (ih (fun c hc => h c (List.mem_cons_of_mem d hc)))

/-- Unfolding lemma for the scanner in digit-collecting state. -/
theorem normCore_cons_some (c : Char) (rest digs : List Char) :
    normCore (c :: rest) (some digs) =
      if isDigitA c then normCore rest (some (c :: digs))
      else if c == '.' then
        (if digs.head? == some '0' && !isWordA c then dotEmit digs
         else '.' :: digs.reverse) ++ normCore rest (some [])
      else
        (if digs.head? == some '0' && !isWordA c then dotEmit digs
         else '.' :: digs.reverse) ++ c :: normCore rest none := rfl

/-- Unfolding lemma for the scanner at the end of input in digit state. -/
theorem normCore_nil_some (digs : List Char) :
    normCore [] (some digs) =
      if digs.head? == some '0' then dotEmit digs else '.' :: digs.reverse := rfl

/-- Unfolding lemma for the scanner in plain state. -/
theorem normCore_cons_none (c : Char) (rest : List Char) :
    normCore (c :: rest) none =
      if c == '.' then normCore rest (some []) else c :: normCore rest none := rfl

/-- The scanner `normCore` implements the regex substitution `normRe`,
in both scanner states. -/
theorem normCore_spec : ∀ l : List Char,
    normCore l none = normRe l ∧
    ∀ digs, (∀ c ∈ digs, isDigitA c = true) →
      normCore l (some digs) = normRe ('.' :: (digs.reverse ++ l)) := by
  intro l
  induction l with
  | nil =>
    constructor
    · simp [normCore, normRe]
    · intro digs hall
      have halr : ∀ c ∈ digs.reverse, isDigitA c = true := by
        intro c hc; exact hall c (List.mem_reverse.mp hc)
      rw [normCore_nil_some]
      conv_rhs => rw [normRe]
      rw [if_pos (show (('.' == '.') = true) from rfl)]
      simp only [List.append_nil]
      rw [takeWhile_all isDigitA digs.reverse halr,
        dropWhile_all isDigitA digs.reverse halr, List.getLast?_reverse]
      rw [show boundaryOk ([] : List Char) = true from rfl, Bool.and_true]
      by_cases hz : digs.head? = some '0'
      · rw [if_pos (show (digs.head? == some '0') = true by simp [hz])]
        rw [if_pos (show (digs.head? == some '0') = true by simp [hz])]
        rw [dotEmit_eq_emitRun, normRe, List.append_nil]
      · rw [if_neg (show ¬((digs.head? == some '0') = true) by simp [hz])]
        rw [if_neg (show ¬((digs.head? == some '0') = true) by simp [hz])]
        have h2 := normRe_digits_append digs.reverse [] halr
        rw [List.append_nil] at h2
        rw [h2, normRe, List.append_nil]
  | cons c rest ih =>
    constructor
    · rw [normCore_cons_none]
      by_cases hc : c = '.'
      · subst hc
        rw [if_pos (show (('.' == '.') = true) from rfl)]
        rw [ih.2 [] (by intro x hx; cases hx)]
        simp
      · rw [if_neg (show ¬((c == '.') = true) by simp [hc])]
        rw [ih.1]
        conv_rhs => rw [normRe]
        rw [if_neg (show ¬((c == '.') = true) by simp [hc])]
    · intro digs hall
      have halr : ∀ x ∈ digs.reverse, isDigitA x = true := by
        intro x hx; exact hall x (List.mem_reverse.mp hx)
      rw [normCore_cons_some]
      by_cases hd : isDigitA c = true
      · rw [if_pos hd]
        rw [ih.2 (c :: digs) (by
          intro x hx
          cases hx with
          | head => exact hd
          | tail _ hmem => exact hall x hmem)]
        simp [List.reverse_cons]
      · rw [if_neg hd]
        have hrun : ((digs.reverse ++ c :: rest).takeWhile isDigitA) = digs.reverse := by
          rw [takeWhile_append_all _ _ _ halr, List.takeWhile_cons_of_neg hd, List.append_nil]
        have hrest2 : ((digs.reverse ++ c :: rest).dropWhile isDigitA) = c :: rest := by
          rw [dropWhile_append_all _ _ _ halr, List.dropWhile_cons_of_neg hd]
        by_cases hcd : c = '.'
        · subst hcd
          rw [if_pos (show (('.' == '.') = true) from rfl)]
          rw [ih.2 [] (by intro x hx; cases hx)]
          simp only [List.reverse_nil, List.nil_append]
          conv_rhs => rw [normRe]
          rw [if_pos (show (('.' == '.') = true) from rfl)]
          rw [hrun, hrest2, List.getLast?_reverse,
            show boundaryOk ('.' :: rest) = !isWordA '.' from rfl]
          by_cases hm : (digs.head? == some '0' && !isWordA '.') = true
          · rw [if_pos hm, if_pos hm, dotEmit_eq_emitRun]
          · rw [if_neg hm, if_neg hm]
            rw [normRe_digits_append digs.reverse ('.' :: rest) halr]
            simp
        · rw [if_neg (show ¬((c == '.') = true) by simp [hcd])]
          rw [ih.1]
          conv_rhs => rw [normRe]
          rw [if_pos (show (('.' == '.') = true) from rfl)]
          rw [hrun, hrest2, List.getLast?_reverse,
            show boundaryOk (c :: rest) = !isWordA c from rfl]
          by_cases hm : (digs.head? == some '0' && !isWordA c) = true
          · rw [if_pos hm, if_pos hm, dotEmit_eq_emitRun]
            conv_rhs => rw [normRe]
            rw [if_neg (show ¬((c == '.') = true) by simp [hcd])]
          · rw [if_neg hm, if_neg hm]
            rw [normRe_digits_append digs.reverse (c :: rest) halr]
            conv_rhs => rw [normRe]
            rw [if_neg (show ¬((c == '.') = true) by simp [hcd])]
            simp

/-- The function `_normalize_numbers` is the regex substitution. -/
theorem normalize_eq_normRe (s : String) :
    _normalize_numbers s = String.mk (normRe s.data) := by
  unfold _normalize_numbers
  rw [(normCore_spec s.data).1]

/-! ## Idempotence of the normalizer -/

/-- The regex pattern matches at a dot followed by `rest`. -/
def matchCond (rest : List Char) : Bool :=
  (rest.takeWhile isDigitA).getLast? == some '0' && boundaryOk (rest.dropWhile isDigitA)

/-- Restatement of `normRe` through `matchCond`. -/
theorem normRe_cons (c : Char) (rest : List Char) :
    normRe (c :: rest) =
      if c == '.' then
        if matchCond rest then
          emitRun (rest.takeWhile isDigitA) ++ normRe (rest.dropWhile isDigitA)
        else '.' :: normRe rest
      else c :: normRe rest := by
  rw [normRe]; rfl

/-- No position of the text matches the pattern. -/
def noMatchB : List Char → Bool
  | [] => true
  | c :: rest => (if c == '.' then !matchCond rest else true) && noMatchB rest

/-- On match-free text the substitution is the identity. -/
theorem normRe_of_noMatch : ∀ l : List Char, noMatchB l = true → normRe l = l := by
  intro l
  induction l with
  | nil => simp [normRe]
  | cons c rest ih =>
    intro h
    rw [show noMatchB (c :: rest) =
        ((if c == '.' then !matchCond rest else true) && noMatchB rest) from rfl] at h
    rw [Bool.and_eq_true] at h
    rw [normRe_cons]
    by_cases hc : c = '.'
    · subst hc
      have h1 := h.1
      rw [if_pos (show (('.' == '.') = true) from rfl)] at h1
      rw [if_pos (show (('.' == '.') = true) from rfl)]
      rw [if_neg (show ¬(matchCond rest = true) by simp at h1 ⊢; exact h1)]
      rw [ih h.2]
    · rw [if_neg (show ¬((c == '.') = true) by simp [hc])]
      rw [ih h.2]

/-- If the text does not start with a digit, neither does its image. -/
theorem normRe_head_not_digit :
    ∀ l : List Char, (∀ c, l.head? = some c → isDigitA c = false) →
      ∀ c, (normRe l).head? = some c → isDigitA c = false := by
  intro l
  induction l using normRe.induct with
  | case1 => intro _ c h; simp [normRe] at h
  | case2 c rest h1 h2 ih =>
    intro _ d hd
    have h2m : matchCond rest = true := h2
    rw [normRe_cons, if_pos h1, if_pos h2m] at hd
    by_cases hE : (dropTrailingZeros (rest.takeWhile isDigitA)).isEmpty = true
    · rw [show emitRun (rest.takeWhile isDigitA) = [] by simp [emitRun, hE]] at hd
      rw [List.nil_append] at hd
      exact ih (fun e he => head_dropWhile_false isDigitA rest e he) d hd
    · rw [show emitRun (rest.takeWhile isDigitA) =
          '.' :: dropTrailingZeros (rest.takeWhile isDigitA) by simp [emitRun, hE]] at hd
      rw [List.cons_append, List.head?_cons, Option.some.injEq] at hd
      subst hd
      decide
  | case3 c rest h1 h2 ih =>
    intro _ d hd
    have h2m : ¬(matchCond rest = true) := h2
    rw [normRe_cons, if_pos h1, if_neg h2m] at hd
    rw [List.head?_cons, Option.some.injEq] at hd
    subst hd
    decide
  | case4 c rest h1 ih =>
    intro hin d hd
    rw [normRe_cons, if_neg h1] at hd
    rw [List.head?_cons, Option.some.injEq] at hd
    subst hd
    exact hin c rfl

/-- A list whose head fails `isDigitA` takes nothing and drops nothing. -/
theorem takeWhile_of_head_not_digit (m : List Char)
    (h : ∀ c, m.head? = some c → isDigitA c = false) :
    m.takeWhile isDigitA = [] ∧ m.dropWhile isDigitA = m := by
  cases m with
  | nil => simp
  | cons c m2 =>
    have hc : isDigitA c = false := h c rfl
    constructor
    · exact List.takeWhile_cons_of_neg (by simp [hc])
    · exact List.dropWhile_cons_of_neg (by simp [hc])

/-- Text made of digits contributes no match positions. -/
theorem noMatchB_digits_append (ds m : List Char)
    (h : ∀ c ∈ ds, isDigitA c = true) (hm : noMatchB m = true) :
    noMatchB (ds ++ m) = true := by
  induction ds with
  | nil => simpa using hm
  | cons d ds ih =>
    rw [List.cons_append]
    rw [show noMatchB (d :: (ds ++ m)) =
        ((if d == '.' then !matchCond (ds ++ m) else true) && noMatchB (ds ++ m)) from rfl]
    rw [if_neg (by simp [digit_ne_dot d (h d (by simp))])]
    rw [Bool.true_and]
    exact ih (fun c hc => h c (List.mem_cons_of_mem d hc))

/-- Members of the stripped run are members of the run. -/
theorem mem_dropTrailingZeros (run : List Char) (c : Char)
    (h : c ∈ dropTrailingZeros run) : c ∈ run := by
  unfold dropTrailingZeros at h
  rw [List.mem_reverse] at h
  have := (List.dropWhile_sublist (l := run.reverse) (fun c => c == '0')).subset h
  exact List.mem_reverse.mp this

/-- The stripped run does not end in a zero. -/
theorem dropTrailingZeros_getLast (run : List Char) :
    ((dropTrailingZeros run).getLast? == some '0') = false := by
  unfold dropTrailingZeros
  rw [List.getLast?_reverse]
  cases hL : (run.reverse.dropWhile (fun c => c == '0')).head? with
  | none => rfl
  | some c =>
    have := head_dropWhile_false (fun c => c == '0') run.reverse c hL
    rw [beq_eq_false_iff_ne] at this ⊢
    simpa using this

/-- Members of `l.takeWhile p` satisfy `p`. -/
theorem mem_takeWhile_pred (p : Char → Bool) :
    ∀ (l : List Char) (x : Char), x ∈ l.takeWhile p → p x = true := by
  intro l
  induction l with
  | nil => intro x hx; simp at hx
  | cons a l ih =>
    intro x hx
    by_cases ha : p a = true
    · rw [List.takeWhile_cons_of_pos ha] at hx
      cases hx with
      | head => exact ha
      | tail _ hmem => exact ih x hmem
    · rw [List.takeWhile_cons_of_neg ha] at hx
      cases hx

/-- A digit is not whitespace. -/
theorem digit_not_space (c : Char) (h : isDigitA c = true) : isPySpace c = false := by
  cases hsp : isPySpace c with
  | false => rfl
  | true =>
    exfalso
    simp only [isPySpace, Bool.or_eq_true, beq_iff_eq] at hsp
    have hsp2 : c = ' ' ∨ c = '\t' ∨ c = '\n' ∨ c = '\x0b' ∨ c = '\x0c' ∨ c = '\r' := by
      tauto
    rcases hsp2 with h1 | h1 | h1 | h1 | h1 | h1 <;> (subst h1; exact absurd h (by decide))

/-- The output of the substitution contains no match position. -/
theorem noMatch_normRe : ∀ l : List Char, noMatchB (normRe l) = true := by
  intro l
  induction l using normRe.induct with
  | case1 => simp [normRe, noMatchB]
  | case2 c rest h1 h2 ih =>
    have h2m : matchCond rest = true := h2
    rw [normRe_cons, if_pos h1, if_pos h2m]
    have hdigs : ∀ x ∈ rest.takeWhile isDigitA, isDigitA x = true := by
      intro x hx; exact mem_takeWhile_pred _ _ x hx
    have hhead := normRe_head_not_digit (rest.dropWhile isDigitA)
      (fun e he => head_dropWhile_false isDigitA rest e he)
    by_cases hE : (dropTrailingZeros (rest.takeWhile isDigitA)).isEmpty = true
    · rw [show emitRun (rest.takeWhile isDigitA) = [] by simp [emitRun, hE]]
      rw [List.nil_append]
      exact ih
    · rw [show emitRun (rest.takeWhile isDigitA) =
          '.' :: dropTrailingZeros (rest.takeWhile isDigitA) by simp [emitRun, hE]]
      rw [List.cons_append]
      rw [show noMatchB ('.' :: (dropTrailingZeros (rest.takeWhile isDigitA) ++
            normRe (rest.dropWhile isDigitA))) =
          ((if ('.' : Char) == '.' then
              !matchCond (dropTrailingZeros (rest.takeWhile isDigitA) ++
                normRe (rest.dropWhile isDigitA))
            else true) &&
            noMatchB (dropTrailingZeros (rest.takeWhile isDigitA) ++
              normRe (rest.dropWhile isDigitA))) from rfl]
      rw [if_pos (show (('.' == '.') = true) from rfl)]
      have hdz : ∀ x ∈ dropTrailingZeros (rest.takeWhile isDigitA), isDigitA x = true := by
        intro x hx; exact hdigs x (mem_dropTrailingZeros _ x hx)
      rw [Bool.and_eq_true]
      constructor
      · have htk := takeWhile_of_head_not_digit (normRe (rest.dropWhile isDigitA)) hhead
        rw [show matchCond (dropTrailingZeros (rest.takeWhile isDigitA) ++
              normRe (rest.dropWhile isDigitA)) =
            (((dropTrailingZeros (rest.takeWhile isDigitA) ++
                normRe (rest.dropWhile isDigitA)).takeWhile isDigitA).getLast? == some '0' &&
              boundaryOk ((dropTrailingZeros (rest.takeWhile isDigitA) ++
                normRe (rest.dropWhile isDigitA)).dropWhile isDigitA)) from rfl]
        rw [takeWhile_append_all _ _ _ hdz, htk.1, List.append_nil]
        rw [dropTrailingZeros_getLast]
        simp
      · exact noMatchB_digits_append _ _ hdz ih
  | case3 c rest h1 h2 ih =>
    have h2m : ¬(matchCond rest = true) := h2
    rw [normRe_cons, if_pos h1, if_neg h2m]
    rw [show noMatchB ('.' :: normRe rest) =
        ((if ('.' : Char) == '.' then !matchCond (normRe rest) else true) &&
          noMatchB (normRe rest)) from rfl]
    rw [if_pos (show (('.' == '.') = true) from rfl)]
    rw [Bool.and_eq_true]
    refine ⟨?_, ih⟩
    -- the rewritten tail still fails the match condition
    have hdigs : ∀ x ∈ rest.takeWhile isDigitA, isDigitA x = true := by
      intro x hx; exact mem_takeWhile_pred _ _ x hx
    have hhead := normRe_head_not_digit (rest.dropWhile isDigitA)
      (fun e he => head_dropWhile_false isDigitA rest e he)
    have htk := takeWhile_of_head_not_digit (normRe (rest.dropWhile isDigitA)) hhead
    have hsplit : normRe rest =
        rest.takeWhile isDigitA ++ normRe (rest.dropWhile isDigitA) := by
      conv_lhs => rw [← List.takeWhile_append_dropWhile (p := isDigitA) (l := rest)]
      exact normRe_digits_append _ _ hdigs
    rw [hsplit]
    rw [show matchCond (rest.takeWhile isDigitA ++ normRe (rest.dropWhile isDigitA)) =
        (((rest.takeWhile isDigitA ++
            normRe (rest.dropWhile isDigitA)).takeWhile isDigitA).getLast? == some '0' &&
          boundaryOk ((rest.takeWhile isDigitA ++
            normRe (rest.dropWhile isDigitA)).dropWhile isDigitA)) from rfl]
    rw [takeWhile_append_all _ _ _ hdigs, htk.1, List.append_nil]
    rw [dropWhile_append_all _ _ _ hdigs, htk.2]
    rw [show matchCond rest =
        ((rest.takeWhile isDigitA).getLast? == some '0' &&
          boundaryOk (rest.dropWhile isDigitA)) from rfl] at h2m
    rw [Bool.not_eq_true] at h2m
    rw [Bool.and_eq_false_iff] at h2m
    have hfalse : ((rest.takeWhile isDigitA).getLast? == some '0' &&
        boundaryOk (normRe (rest.dropWhile isDigitA))) = false := by
      cases h2m with
      | inl hz => exact Bool.and_eq_false_iff.mpr (Or.inl hz)
      | inr hb =>
        refine Bool.and_eq_false_iff.mpr (Or.inr ?_)
        cases hrest2 : rest.dropWhile isDigitA with
        | nil => rw [hrest2] at hb; exact absurd hb (by simp [boundaryOk])
        | cons c0 r0 =>
          rw [hrest2] at hb
          have hw : isWordA c0 = true := by
            rw [show boundaryOk (c0 :: r0) = !isWordA c0 from rfl] at hb
            simpa using hb
          have hc0d : ¬(c0 = '.') := by
            intro he; subst he; exact absurd hw (by decide)
          rw [normRe_cons, if_neg (show ¬((c0 == '.') = true) by simp [hc0d])]
          rw [show boundaryOk (c0 :: normRe r0) = !isWordA c0 from rfl]
          simpa using hw
    rw [hfalse]
    rfl
  | case4 c rest h1 ih =>
    rw [normRe_cons, if_neg h1]
    rw [show noMatchB (c :: normRe rest) =
        ((if c == '.' then !matchCond (normRe rest) else true) && noMatchB (normRe rest))
          from rfl]
    rw [if_neg h1, Bool.true_and]
    exact ih

/-- The substitution is idempotent on character lists. -/
theorem normRe_idem (l : List Char) : normRe (normRe l) = normRe l :=
  normRe_of_noMatch _ (noMatch_normRe l)

/-- The substitution never touches whitespace. -/
theorem normRe_filter_space : ∀ l : List Char,
    (normRe l).filter isPySpace = l.filter isPySpace := by
  intro l
  induction l using normRe.induct with
  | case1 => simp [normRe]
  | case2 c rest h1 h2 ih =>
    have h2m : matchCond rest = true := h2
    have hc : c = '.' := by simpa using h1
    subst hc
    rw [normRe_cons, if_pos (show (('.' == '.') = true) from rfl), if_pos h2m]
    rw [List.filter_append]
    have hdigs : ∀ x ∈ rest.takeWhile isDigitA, isDigitA x = true := by
      intro x hx; exact mem_takeWhile_pred _ _ x hx
    have hemit : (emitRun (rest.takeWhile isDigitA)).filter isPySpace = [] := by
      rw [List.filter_eq_nil]
      intro a ha
      unfold emitRun at ha
      by_cases hE : (dropTrailingZeros (rest.takeWhile isDigitA)).isEmpty = true
      · rw [if_pos hE] at ha; cases ha
      · rw [if_neg hE] at ha
        cases ha with
        | head => decide
        | tail _ hmem =>
          have := hdigs a (mem_dropTrailingZeros _ a hmem)
          simp [digit_not_space a this]
    rw [hemit, List.nil_append, ih]
    have hrsplit : rest = rest.takeWhile isDigitA ++ rest.dropWhile isDigitA :=
      (List.takeWhile_append_dropWhile (p := isDigitA) (l := rest)).symm
    conv_rhs => rw [show (('.' :: rest).filter isPySpace) = rest.filter isPySpace by
      simp [List.filter_cons, show isPySpace '.' = false from rfl]]
    conv_rhs => rw [hrsplit]
    rw [List.filter_append]
    rw [show (rest.takeWhile isDigitA).filter isPySpace = [] by
      rw [List.filter_eq_nil]
      intro a ha
      simp [digit_not_space a (hdigs a ha)]]
    rw [List.nil_append]
  | case3 c rest h1 h2 ih =>
    have h2m : ¬(matchCond rest = true) := h2
    have hc : c = '.' := by simpa using h1
    subst hc
    rw [normRe_cons, if_pos (show (('.' == '.') = true) from rfl), if_neg h2m]
    simp [List.filter_cons, show isPySpace '.' = false from rfl, ih]
  | case4 c rest h1 ih =>
    rw [normRe_cons, if_neg h1]
    simp [List.filter_cons, ih]

/-- The substitution only deletes characters. -/
theorem normRe_sublist : ∀ l : List Char, List.Sublist (normRe l) l := by
  intro l
  induction l using normRe.induct with
  | case1 => simp [normRe]
  | case2 c rest h1 h2 ih =>
    have h2m : matchCond rest = true := h2
    have hc : c = '.' := by simpa using h1
    subst hc
    rw [normRe_cons, if_pos (show (('.' == '.') = true) from rfl), if_pos h2m]
    have hrsplit : rest = rest.takeWhile isDigitA ++ rest.dropWhile isDigitA :=
      (List.takeWhile_append_dropWhile (p := isDigitA) (l := rest)).symm
    conv_rhs => rw [hrsplit]
    rw [show ('.' :: (rest.takeWhile isDigitA ++ rest.dropWhile isDigitA)) =
        ('.' :: rest.takeWhile isDigitA) ++ rest.dropWhile isDigitA from rfl]
    refine List.Sublist.append ?_ ih
    unfold emitRun
    by_cases hE : (dropTrailingZeros (rest.takeWhile isDigitA)).isEmpty = true
    · rw [if_pos hE]; exact List.nil_sublist _
    · rw [if_neg hE]
      refine List.Sublist.cons₂ '.' ?_
      unfold dropTrailingZeros
      have hsub := (List.dropWhile_sublist (l := (rest.takeWhile isDigitA).reverse)
        (fun c => c == '0')).reverse
      rw [List.reverse_reverse] at hsub
      exact hsub
  | case3 c rest h1 h2 ih =>
    have h2m : ¬(matchCond rest = true) := h2
    have hc : c = '.' := by simpa using h1
    subst hc
    rw [normRe_cons, if_pos (show (('.' == '.') = true) from rfl), if_neg h2m]
    exact List.Sublist.cons₂ '.' ih
  | case4 c rest h1 ih =>
    rw [normRe_cons, if_neg h1]
    exact List.Sublist.cons₂ c ih

/-! ## Splitting and joining -/

/-- A word list is well formed when every word is nonempty and whitespace-free;
`str.split()` produces exactly such lists. -/
def goodWords (ws : List String) : Prop :=
  ∀ w ∈ ws, w ≠ "" ∧ ∀ c ∈ w.data, isPySpace c = false

/-- Unfolding lemma. -/
theorem splitAux_nil (acc : List Char) :
    splitAux [] acc = if acc.isEmpty then [] else [String.mk acc.reverse] := rfl

/-- Unfolding lemma. -/
theorem splitAux_cons (c : Char) (rest acc : List Char) :
    splitAux (c :: rest) acc =
      if isPySpace c then
        if acc.isEmpty then splitAux rest [] else String.mk acc.reverse :: splitAux rest []
      else splitAux rest (c :: acc) := rfl

theorem splitAux_words : ∀ (l acc : List Char), (∀ c ∈ acc, isPySpace c = false) →
    ∀ w ∈ splitAux l acc, w ≠ "" ∧ ∀ c ∈ w.data, isPySpace c = false := by
  intro l
  induction l with
  | nil =>
    intro acc hacc w hw
    rw [splitAux_nil] at hw
    by_cases hE : acc.isEmpty = true
    · rw [if_pos hE] at hw; cases hw
    · rw [if_neg hE] at hw
      have hw2 : w = String.mk acc.reverse := by
        cases hw with
        | head => rfl
        | tail _ hmem => cases hmem
      subst hw2
      constructor
      · intro hcon
        have hd : acc.reverse = [] := congrArg String.data hcon
        rw [List.reverse_eq_nil_iff] at hd
        subst hd
        exact hE rfl
      · intro c hc
        exact hacc c (List.mem_reverse.mp hc)
  | cons c rest ih =>
    intro acc hacc w hw
    rw [splitAux_cons] at hw
    by_cases hsp : isPySpace c = true
    · rw [if_pos hsp] at hw
      by_cases hE : acc.isEmpty = true
      · rw [if_pos hE] at hw
        exact ih [] (by intro x hx; cases hx) w hw
      · rw [if_neg hE] at hw
        cases hw with
        | head =>
          constructor
          · intro hcon
            have hd : acc.reverse = [] := congrArg String.data hcon
            rw [List.reverse_eq_nil_iff] at hd
            subst hd
            exact hE rfl
          · intro d hd
            exact hacc d (List.mem_reverse.mp hd)
        | tail _ hmem => exact ih [] (by intro x hx; cases hx) w hmem
    · rw [if_neg hsp] at hw
      refine ih (c :: acc) ?_ w hw
      intro d hd
      cases hd with
      | head => exact Bool.eq_false_iff.mpr hsp
      | tail _ hmem => exact hacc d hmem

/-- Every word produced by `pySplit` is nonempty and whitespace-free. -/
theorem pySplit_goodWords (s : String) : goodWords (pySplit s) := by
  intro w hw
  exact splitAux_words s.data [] (by intro x hx; cases hx) w hw

/-- Scanning a whitespace-free block accumulates it whole. -/
theorem splitAux_block : ∀ (wd l acc : List Char),
    (∀ c ∈ wd, isPySpace c = false) →
    splitAux (wd ++ l) acc = splitAux l (wd.reverse ++ acc) := by
  intro wd
  induction wd with
  | nil => intro l acc _; simp
  | cons c wd ih =>
    intro l acc h
    rw [List.cons_append]
    rw [splitAux_cons]
    rw [if_neg (by simp [h c (by simp)])]
    rw [ih l (c :: acc) (fun d hd => h d (List.mem_cons_of_mem c hd))]
    rw [List.reverse_cons, List.append_assoc, List.singleton_append]

/-- Splitting the single-space join of well-formed words recovers the words. -/
theorem pySplit_joinWords : ∀ ws : List String, goodWords ws →
    pySplit (joinWords ws) = ws := by
  intro ws
  induction ws with
  | nil => intro _; rfl
  | cons w ws ih =>
    intro h
    have hw := h w (by simp)
    have hwd : w.data ≠ [] := by
      intro hd
      apply hw.1
      have he : w = String.mk w.data := rfl
      rw [he, hd]
    cases ws with
    | nil =>
      show splitAux (joinWords [w]).data [] = [w]
      rw [show joinWords [w] = w from rfl]
      have := splitAux_block w.data [] [] hw.2
      rw [List.append_nil] at this
      rw [this]
      rw [splitAux_nil]
      rw [if_neg (by
        simp only [List.append_nil, List.isEmpty_eq_true, List.reverse_eq_nil_iff]
        exact hwd)]
      rw [List.append_nil, List.reverse_reverse]
    | cons x xs =>
      show splitAux (joinWords (w :: x :: xs)).data [] = w :: x :: xs
      have hjd : (joinWords (w :: x :: xs)).data =
          w.data ++ (' ' :: (joinWords (x :: xs)).data) := by
        rw [show joinWords (w :: x :: xs) = w ++ " " ++ joinWords (x :: xs) from rfl]
        rw [String.data_append, String.data_append]
        rw [List.append_assoc]
        rfl
      rw [hjd, splitAux_block w.data _ [] hw.2]
      rw [splitAux_cons]
      rw [if_pos (show isPySpace ' ' = true from rfl)]
      rw [if_neg (by
        simp only [List.append_nil, List.isEmpty_eq_true, List.reverse_eq_nil_iff]
        exact hwd)]
      rw [List.append_nil, List.reverse_reverse]
      rw [show splitAux (joinWords (x :: xs)).data [] = pySplit (joinWords (x :: xs)) from rfl]
      rw [ih (fun u hu => h u (List.mem_cons_of_mem w hu))]

/-- Joining is the left inverse on already-canonical strings; in particular the
join of a split-join is the join itself. -/
theorem joinWords_pySplit_joinWords (ws : List String) (h : goodWords ws) :
    joinWords (pySplit (joinWords ws)) = joinWords ws := by
  rw [pySplit_joinWords ws h]

/-! ## Properties of the sentence-tagging loop -/

/-- The map `tagKey?` is defined exactly below the alphabet size. -/
theorem tagKey?_eq_none_iff (n : Nat) : tagKey? n = none ↔ 8 ≤ n := by
  unfold tagKey? _TAGS
  cases n with
  | zero => simp
  | succ n1 => cases n1 with
    | zero => simp
    | succ n2 => cases n2 with
      | zero => simp
      | succ n3 => cases n3 with
        | zero => simp
        | succ n4 => cases n4 with
          | zero => simp
          | succ n5 => cases n5 with
            | zero => simp
            | succ n6 => cases n6 with
              | zero => simp
              | succ n7 => cases n7 with
                | zero => simp
                | succ n8 => simp [List.get?]

/-- A defined tag forces its index below the alphabet size. -/
theorem tagKey?_lt (n : Nat) (k : String) (h : tagKey? n = some k) : n < 8 := by
  by_contra hc
  push_neg at hc
  rw [← tagKey?_eq_none_iff] at hc
  rw [hc] at h
  cases h

/-- Distinct indices below the alphabet size carry distinct tags. -/
theorem tagKey?_inj (i j : Nat) (k : String) (hi : tagKey? i = some k)
    (hj : tagKey? j = some k) : i = j := by
  have hd : ∀ a, a < 8 → ∀ b, b < 8 → tagKey? a = tagKey? b → a = b := by decide
  exact hd i (tagKey?_lt i k hi) j (tagKey?_lt j k hj) (by rw [hi, hj])

/-- Tags are nonempty, whitespace-free words. -/
theorem tagKey?_good (n : Nat) (k : String) (h : tagKey? n = some k) :
    k ≠ "" ∧ ∀ c ∈ k.data, isPySpace c = false := by
  have hlt := tagKey?_lt n k h
  have hd : ∀ a, a < 8 →
      (tagKey? a).getD "?" ≠ "" ∧ ∀ c ∈ ((tagKey? a).getD "?").data, isPySpace c = false := by
    decide
  have := hd n hlt
  rw [h] at this
  exact this

/-- A tag never parses as a float. -/
theorem tagKey?_not_float (n : Nat) (k : String) (h : tagKey? n = some k) :
    pyFloat k = false := by
  have hlt := tagKey?_lt n k h
  have hd : ∀ a, a < 8 → pyFloat ((tagKey? a).getD "?") = false := by decide
  have := hd n hlt
  rw [h] at this
  exact this

/-- Unfolding: a numeric word with an available tag. -/
theorem tagSentence_cons_num_ok (w : String) (ws : List String)
    (acc : List (String × String)) (k : String) (ts : List String)
    (lk : List (String × String)) (hf : pyFloat w = true)
    (hk : tagKey? acc.length = some k)
    (hrec : tagSentence ws (acc ++ [(k, w)]) = .ok (ts, lk)) :
    tagSentence (w :: ws) acc = .ok (k :: ts, lk) := by
  simp [tagSentence, hf, hk, hrec]

/-- Unfolding: a numeric word with an available tag, failing recursion. -/
theorem tagSentence_cons_num_err (w : String) (ws : List String)
    (acc : List (String × String)) (k : String) (e : TagError)
    (hf : pyFloat w = true) (hk : tagKey? acc.length = some k)
    (hrec : tagSentence ws (acc ++ [(k, w)]) = .error e) :
    tagSentence (w :: ws) acc = .error e := by
  simp [tagSentence, hf, hk, hrec]

/-- Unfolding: a numeric word with the alphabet exhausted. -/
theorem tagSentence_cons_exhaust (w : String) (ws : List String)
    (acc : List (String × String)) (hf : pyFloat w = true)
    (hk : tagKey? acc.length = none) :
    tagSentence (w :: ws) acc = .error .alphabetExhausted := by
  simp [tagSentence, hf, hk]

/-- Unfolding: a non-numeric word, successful recursion. -/
theorem tagSentence_cons_skip_ok (w : String) (ws : List String)
    (acc : List (String × String)) (ts : List String)
    (lk : List (String × String)) (hf : pyFloat w = false)
    (hrec : tagSentence ws acc = .ok (ts, lk)) :
    tagSentence (w :: ws) acc = .ok (w :: ts, lk) := by
  simp [tagSentence, hf, hrec]

/-- Unfolding: a non-numeric word, failing recursion. -/
theorem tagSentence_cons_skip_err (w : String) (ws : List String)
    (acc : List (String × String)) (e : TagError) (hf : pyFloat w = false)
    (hrec : tagSentence ws acc = .error e) :
    tagSentence (w :: ws) acc = .error e := by
  simp [tagSentence, hf, hrec]

/-- Inversion of a successful step of the sentence loop. -/
theorem tagSentence_cons_ok_inv (w : String) (ws : List String)
    (acc : List (String × String)) (ts : List String)
    (lk : List (String × String))
    (h : tagSentence (w :: ws) acc = .ok (ts, lk)) :
    (∃ k ts2, pyFloat w = true ∧ tagKey? acc.length = some k ∧
      tagSentence ws (acc ++ [(k, w)]) = .ok (ts2, lk) ∧ ts = k :: ts2) ∨
    (∃ ts2, pyFloat w = false ∧ tagSentence ws acc = .ok (ts2, lk) ∧ ts = w :: ts2) := by
  by_cases hf : pyFloat w = true
  · cases hk : tagKey? acc.length with
    | none => rw [tagSentence_cons_exhaust w ws acc hf hk] at h; cases h
    | some k =>
      cases hrec : tagSentence ws (acc ++ [(k, w)]) with
      | error e => rw [tagSentence_cons_num_err w ws acc k e hf hk hrec] at h; cases h
      | ok r =>
        obtain ⟨ts2, lk2⟩ := r
        rw [tagSentence_cons_num_ok w ws acc k ts2 lk2 hf hk hrec] at h
        injection h with h2
        injection h2 with h3 h4
        subst h4
        left
        exact ⟨k, ts2, hf, rfl, hrec, h3.symm⟩
  · have hf2 : pyFloat w = false := Bool.eq_false_iff.mpr hf
    cases hrec : tagSentence ws acc with
    | error e => rw [tagSentence_cons_skip_err w ws acc e hf2 hrec] at h; cases h
    | ok r =>
      obtain ⟨ts2, lk2⟩ := r
      rw [tagSentence_cons_skip_ok w ws acc ts2 lk2 hf2 hrec] at h
      injection h with h2
      injection h2 with h3 h4
      subst h4
      right
      exact ⟨ts2, hf2, rfl, h3.symm⟩

/-- The keys of a lookup dict are exactly the tags of their positions. -/
def KeysOk (lk : List (String × String)) : Prop :=
  ∀ (j : Nat) (p : String × String), lk[j]? = some p → tagKey? j = some p.1

/-- The loop only appends to the lookup dict. -/
theorem tagSentence_extends : ∀ (ws : List String) (acc : List (String × String))
    (ts : List String) (lk : List (String × String)),
    tagSentence ws acc = .ok (ts, lk) → ∃ new, lk = acc ++ new := by
  intro ws
  induction ws with
  | nil =>
    intro acc ts lk h
    injection h with h2
    injection h2 with h3 h4
    exact ⟨[], by rw [← h4, List.append_nil]⟩
  | cons w ws ih =>
    intro acc ts lk h
    rcases tagSentence_cons_ok_inv w ws acc ts lk h with
      ⟨k, ts2, hf, hk, hrec, hts⟩ | ⟨ts2, hf, hrec, hts⟩
    · obtain ⟨new2, hnew⟩ := ih (acc ++ [(k, w)]) ts2 lk hrec
      exact ⟨(k, w) :: new2, by rw [hnew, List.append_assoc, List.singleton_append]⟩
    · exact ih acc ts2 lk hrec

/-- The lookup dict grows by one entry per accepted word. -/
theorem tagSentence_len : ∀ (ws : List String) (acc : List (String × String))
    (ts : List String) (lk : List (String × String)),
    tagSentence ws acc = .ok (ts, lk) →
    lk.length = acc.length + (ws.filter (fun w => pyFloat w)).length := by
  intro ws
  induction ws with
  | nil =>
    intro acc ts lk h
    injection h with h2
    injection h2 with h3 h4
    rw [← h4]
    simp
  | cons w ws ih =>
    intro acc ts lk h
    rcases tagSentence_cons_ok_inv w ws acc ts lk h with
      ⟨k, ts2, hf, hk, hrec, hts⟩ | ⟨ts2, hf, hrec, hts⟩
    · have := ih (acc ++ [(k, w)]) ts2 lk hrec
      rw [this]
      rw [List.filter_cons_of_pos (by simp [hf])]
      simp
      omega
    · have := ih acc ts2 lk hrec
      rw [this]
      rw [List.filter_cons_of_neg (by simp [hf])]

/-- The tagged word list is as long as the input word list. -/
theorem tagSentence_ts_len : ∀ (ws : List String) (acc : List (String × String))
    (ts : List String) (lk : List (String × String)),
    tagSentence ws acc = .ok (ts, lk) → ts.length = ws.length := by
  intro ws
  induction ws with
  | nil =>
    intro acc ts lk h
    injection h with h2
    injection h2 with h3 h4
    rw [← h3]
  | cons w ws ih =>
    intro acc ts lk h
    rcases tagSentence_cons_ok_inv w ws acc ts lk h with
      ⟨k, ts2, hf, hk, hrec, hts⟩ | ⟨ts2, hf, hrec, hts⟩
    · subst hts; simp [ih _ _ _ hrec]
    · subst hts; simp [ih _ _ _ hrec]

/-- Keys stay aligned with tag indices through the loop. -/
theorem tagSentence_keysOk : ∀ (ws : List String) (acc : List (String × String))
    (ts : List String) (lk : List (String × String)),
    tagSentence ws acc = .ok (ts, lk) → KeysOk acc → KeysOk lk := by
  intro ws
  induction ws with
  | nil =>
    intro acc ts lk h hacc
    injection h with h2
    injection h2 with h3 h4
    rw [← h4]
    exact hacc
  | cons w ws ih =>
    intro acc ts lk h hacc
    rcases tagSentence_cons_ok_inv w ws acc ts lk h with
      ⟨k, ts2, hf, hk, hrec, hts⟩ | ⟨ts2, hf, hrec, hts⟩
    · refine ih (acc ++ [(k, w)]) ts2 lk hrec ?_
      intro j p hp
      rcases Nat.lt_trichotomy j acc.length with hj | hj | hj
      · rw [List.getElem?_append_left hj] at hp
        exact hacc j p hp
      · subst hj
        rw [List.getElem?_concat_length] at hp
        injection hp with hp2
        rw [← hp2]
        exact hk
      · rw [List.getElem?_eq_none (by simp; omega)] at hp
        cases hp
    · exact ih acc ts2 lk hrec hacc

/-- The values of the lookup dict are the accepted words, in sentence order. -/
theorem tagSentence_vals : ∀ (ws : List String) (acc : List (String × String))
    (ts : List String) (lk : List (String × String)),
    tagSentence ws acc = .ok (ts, lk) →
    lk.map Prod.snd = acc.map Prod.snd ++ ws.filter (fun w => pyFloat w) := by
  intro ws
  induction ws with
  | nil =>
    intro acc ts lk h
    injection h with h2
    injection h2 with h3 h4
    rw [← h4]
    simp
  | cons w ws ih =>
    intro acc ts lk h
    rcases tagSentence_cons_ok_inv w ws acc ts lk h with
      ⟨k, ts2, hf, hk, hrec, hts⟩ | ⟨ts2, hf, hrec, hts⟩
    · rw [ih (acc ++ [(k, w)]) ts2 lk hrec]
      rw [List.filter_cons_of_pos (by simp [hf])]
      simp
    · rw [ih acc ts2 lk hrec]
      rw [List.filter_cons_of_neg (by simp [hf])]

/-- The search `find?` returns the entry at the first index whose key matches. -/
theorem find_first (k : String) : ∀ (lk : List (String × String)) (j : Nat)
    (p : String × String), lk[j]? = some p → p.1 = k →
    (∀ (i : Nat) (q : String × String), i < j → lk[i]? = some q → q.1 ≠ k) →
    lk.find? (fun q => q.1 == k) = some p := by
  intro lk
  induction lk with
  | nil => intro j p hp _ _; simp at hp
  | cons a lk ih =>
    intro j p hp hpk hfirst
    cases j with
    | zero =>
      rw [List.getElem?_cons_zero] at hp
      injection hp with hp2
      subst hp2
      exact List.find?_cons_of_pos _ (by simp [hpk])
    | succ j2 =>
      have ha : a.1 ≠ k := hfirst 0 a (Nat.succ_pos j2) List.getElem?_cons_zero
      rw [List.find?_cons_of_neg _ (by simp [ha])]
      rw [List.getElem?_cons_succ] at hp
      refine ih j2 p hp hpk ?_
      intro i q hi hq
      exact hfirst (i + 1) q (Nat.succ_lt_succ hi) (by rw [List.getElem?_cons_succ]; exact hq)

/-- No entry has a matching key: `find?` fails. -/
theorem find_none (k : String) (lk : List (String × String))
    (h : ∀ p ∈ lk, p.1 ≠ k) : lk.find? (fun q => q.1 == k) = none := by
  rw [List.find?_eq_none]
  intro p hp
  simp [h p hp]

/-- Replacing each tagged word through the lookup dict restores the sentence:
the heart of the unmasking round trip. -/
theorem tagSentence_unmask : ∀ (ws : List String) (acc : List (String × String))
    (ts : List String) (lk : List (String × String)),
    tagSentence ws acc = .ok (ts, lk) → KeysOk lk →
    (∀ w ∈ ws, pyFloat w = false → ∀ p ∈ lk, p.1 ≠ w) →
    ts.map (fun u =>
      match lk.find? (fun p => p.1 == u) with
      | some p => p.2
      | none => u) = ws := by
  intro ws
  induction ws with
  | nil =>
    intro acc ts lk h _ _
    injection h with h2
    injection h2 with h3 h4
    rw [← h3]
    rfl
  | cons w ws ih =>
    intro acc ts lk h hkeys hcol
    rcases tagSentence_cons_ok_inv w ws acc ts lk h with
      ⟨k, ts2, hf, hk, hrec, hts⟩ | ⟨ts2, hf, hrec, hts⟩
    · subst hts
      rw [List.map_cons]
      have hentry : lk[acc.length]? = some (k, w) := by
        obtain ⟨new, hnew⟩ := tagSentence_extends ws (acc ++ [(k, w)]) ts2 lk hrec
        rw [hnew, List.getElem?_append_left (by simp), List.getElem?_concat_length]
      have hfind : lk.find? (fun p => p.1 == k) = some (k, w) := by
        refine find_first k lk acc.length (k, w) hentry rfl ?_
        intro i q hi hq
        intro hqk
        have hqi := hkeys i q hq
        rw [hqk] at hqi
        have := tagKey?_inj i acc.length k hqi hk
        omega
      rw [hfind]
      have hrest := ih (acc ++ [(k, w)]) ts2 lk hrec hkeys
        (fun u hu hnf p hp => hcol u (List.mem_cons_of_mem w hu) hnf p hp)
      rw [hrest]
    · subst hts
      rw [List.map_cons]
      have hfind := find_none w lk
        (fun p hp => hcol w (by simp) hf p hp)
      rw [hfind]
      have hrest := ih acc ts2 lk hrec hkeys
        (fun u hu hnf p hp => hcol u (List.mem_cons_of_mem w hu) hnf p hp)
      rw [hrest]

/-- Tags already allocated before the loop never appear among the words the
loop emits (provided no input word collides with them). -/
theorem tagSentence_count_zero : ∀ (ws : List String) (acc : List (String × String))
    (ts : List String) (lk : List (String × String)) (k : String) (j : Nat),
    tagSentence ws acc = .ok (ts, lk) → tagKey? j = some k → j < acc.length →
    (∀ w ∈ ws, pyFloat w = false → w ≠ k) → ts.count k = 0 := by
  intro ws
  induction ws with
  | nil =>
    intro acc ts lk k j h _ _ _
    injection h with h2
    injection h2 with h3 h4
    rw [← h3]
    rfl
  | cons w ws ih =>
    intro acc ts lk k j h hkj hjlt hcol
    rcases tagSentence_cons_ok_inv w ws acc ts lk h with
      ⟨key, ts2, hf, hk, hrec, hts⟩ | ⟨ts2, hf, hrec, hts⟩
    · subst hts
      have hne : key ≠ k := by
        intro he
        subst he
        have := tagKey?_inj j acc.length key hkj hk
        omega
      rw [List.count_cons_of_ne (by intro he; exact hne he.symm) _]
      exact ih (acc ++ [(key, w)]) ts2 lk k j hrec hkj (by simp; omega)
        (fun u hu hnf => hcol u (List.mem_cons_of_mem w hu) hnf)
    · subst hts
      have hne : w ≠ k := hcol w (by simp) hf
      rw [List.count_cons_of_ne (by intro he; exact hne he.symm) _]
      exact ih acc ts2 lk k j hrec hkj hjlt
        (fun u hu hnf => hcol u (List.mem_cons_of_mem w hu) hnf)

/-- Each tag allocated during the loop appears exactly once among the words
the loop emits (provided no input word collides with it). -/
theorem tagSentence_count_one : ∀ (ws : List String) (acc : List (String × String))
    (ts : List String) (lk : List (String × String)) (k : String) (j : Nat),
    tagSentence ws acc = .ok (ts, lk) → tagKey? j = some k →
    acc.length ≤ j → j < lk.length →
    (∀ w ∈ ws, pyFloat w = false → w ≠ k) → ts.count k = 1 := by
  intro ws
  induction ws with
  | nil =>
    intro acc ts lk k j h hkj hge hlt _
    injection h with h2
    injection h2 with h3 h4
    rw [← h4] at hlt
    omega
  | cons w ws ih =>
    intro acc ts lk k j h hkj hge hlt hcol
    rcases tagSentence_cons_ok_inv w ws acc ts lk h with
      ⟨key, ts2, hf, hk, hrec, hts⟩ | ⟨ts2, hf, hrec, hts⟩
    · subst hts
      by_cases hj : j = acc.length
      · subst hj
        have hkk : key = k := by
          rw [hkj] at hk
          injection hk with hkk2
          exact hkk2.symm
        subst hkk
        rw [List.count_cons_self]
        have h0 := tagSentence_count_zero ws (acc ++ [(key, w)]) ts2 lk key acc.length hrec
          hkj (by simp) (fun u hu hnf => hcol u (List.mem_cons_of_mem w hu) hnf)
        rw [h0]
      · have hne : key ≠ k := by
          intro he
          subst he
          exact hj (tagKey?_inj j acc.length key hkj hk)
        rw [List.count_cons_of_ne (by intro he; exact hne he.symm) _]
        exact ih (acc ++ [(key, w)]) ts2 lk k j hrec hkj (by simp; omega) hlt
          (fun u hu hnf => hcol u (List.mem_cons_of_mem w hu) hnf)
    · subst hts
      have hne : w ≠ k := hcol w (by simp) hf
      rw [List.count_cons_of_ne (by intro he; exact hne he.symm) _]
      exact ih acc ts2 lk k j hrec hkj hge hlt
        (fun u hu hnf => hcol u (List.mem_cons_of_mem w hu) hnf)

/-- Every emitted word is an input word or an allocated tag. -/
theorem tagSentence_words : ∀ (ws : List String) (acc : List (String × String))
    (ts : List String) (lk : List (String × String)),
    tagSentence ws acc = .ok (ts, lk) →
    ∀ u ∈ ts, u ∈ ws ∨ ∃ n, tagKey? n = some u := by
  intro ws
  induction ws with
  | nil =>
    intro acc ts lk h u hu
    injection h with h2
    injection h2 with h3 h4
    rw [← h3] at hu
    cases hu
  | cons w ws ih =>
    intro acc ts lk h u hu
    rcases tagSentence_cons_ok_inv w ws acc ts lk h with
      ⟨key, ts2, hf, hk, hrec, hts⟩ | ⟨ts2, hf, hrec, hts⟩
    · subst hts
      cases hu with
      | head => exact Or.inr ⟨acc.length, hk⟩
      | tail _ hmem =>
        rcases ih (acc ++ [(key, w)]) ts2 lk hrec u hmem with hin | htag
        · exact Or.inl (List.mem_cons_of_mem w hin)
        · exact Or.inr htag
    · subst hts
      cases hu with
      | head => exact Or.inl (by simp)
      | tail _ hmem =>
        rcases ih acc ts2 lk hrec u hmem with hin | htag
        · exact Or.inl (List.mem_cons_of_mem w hin)
        · exact Or.inr htag

/-- With no accepted word the loop is the identity. -/
theorem tagSentence_id : ∀ (ws : List String) (acc : List (String × String)),
    (∀ w ∈ ws, pyFloat w = false) → tagSentence ws acc = .ok (ws, acc) := by
  intro ws
  induction ws with
  | nil => intro acc _; rfl
  | cons w ws ih =>
    intro acc h
    exact tagSentence_cons_skip_ok w ws acc ws acc (h w (by simp))
      (ih acc (fun u hu => h u (List.mem_cons_of_mem w hu)))

/-- The loop succeeds when the accepted words fit in the remaining alphabet. -/
theorem tagSentence_ok_of_le : ∀ (ws : List String) (acc : List (String × String)),
    (ws.filter (fun w => pyFloat w)).length = 0 ∨
      acc.length + (ws.filter (fun w => pyFloat w)).length ≤ 8 →
    ∃ ts lk, tagSentence ws acc = .ok (ts, lk) := by
  intro ws
  induction ws with
  | nil => intro acc _; exact ⟨[], acc, rfl⟩
  | cons w ws ih =>
    intro acc h
    by_cases hf : pyFloat w = true
    · rw [List.filter_cons_of_pos (by simp [hf])] at h
      have hle : acc.length + (ws.filter (fun w => pyFloat w)).length + 1 ≤ 8 := by
        rcases h with h | h
        · simp at h
        · simp only [List.length_cons] at h
          omega
      have hlt : acc.length < 8 := by omega
      have hk : ∃ k, tagKey? acc.length = some k := by
        cases hky : tagKey? acc.length with
        | none => rw [tagKey?_eq_none_iff] at hky; omega
        | some k => exact ⟨k, rfl⟩
      obtain ⟨k, hk⟩ := hk
      obtain ⟨ts2, lk2, hrec⟩ := ih (acc ++ [(k, w)]) (by
        right
        simp only [List.length_append, List.length_cons, List.length_nil]
        omega)
      exact ⟨k :: ts2, lk2, tagSentence_cons_num_ok w ws acc k ts2 lk2 hf hk hrec⟩
    · have hf2 : pyFloat w = false := Bool.eq_false_iff.mpr hf
      rw [List.filter_cons_of_neg (by simp [hf2])] at h
      obtain ⟨ts2, lk2, hrec⟩ := ih acc h
      exact ⟨w :: ts2, lk2, tagSentence_cons_skip_ok w ws acc ts2 lk2 hf2 hrec⟩

/-- The loop raises the exhaustion error when the accepted words overflow the
remaining alphabet. -/
theorem tagSentence_err_of_gt : ∀ (ws : List String) (acc : List (String × String)),
    8 < acc.length + (ws.filter (fun w => pyFloat w)).length →
    0 < (ws.filter (fun w => pyFloat w)).length →
    tagSentence ws acc = .error .alphabetExhausted := by
  intro ws
  induction ws with
  | nil => intro acc _ h0; simp at h0
  | cons w ws ih =>
    intro acc hgt h0
    by_cases hf : pyFloat w = true
    · rw [List.filter_cons_of_pos (by simp [hf])] at hgt
      by_cases hlen : acc.length < 8
      · have hk : ∃ k, tagKey? acc.length = some k := by
          cases hky : tagKey? acc.length with
          | none => rw [tagKey?_eq_none_iff] at hky; omega
          | some k => exact ⟨k, rfl⟩
        obtain ⟨k, hk⟩ := hk
        have hrec := ih (acc ++ [(k, w)])
          (by
            simp only [List.length_append, List.length_cons, List.length_nil] at hgt ⊢
            omega)
          (by
            simp only [List.length_cons] at hgt
            omega)
        exact tagSentence_cons_num_err w ws acc k _ hf hk hrec
      · have hk : tagKey? acc.length = none := by
          rw [tagKey?_eq_none_iff]; omega
        exact tagSentence_cons_exhaust w ws acc hf hk
    · have hf2 : pyFloat w = false := Bool.eq_false_iff.mpr hf
      rw [List.filter_cons_of_neg (by simp [hf2])] at hgt
      rw [List.filter_cons_of_neg (by simp [hf2])] at h0
      exact tagSentence_cons_skip_err w ws acc _ hf2 (ih acc hgt h0)

/-! ## Properties of the inverted dict and the equation loop -/

/-- The search `find?` looks past a prefix in which it fails. -/
theorem find?_append_none (p : String × String → Bool) :
    ∀ (l1 l2 : List (String × String)), l1.find? p = none →
    (l1 ++ l2).find? p = l2.find? p := by
  intro l1
  induction l1 with
  | nil => intro l2 _; rfl
  | cons a l1 ih =>
    intro l2 h
    by_cases ha : p a = true
    · rw [List.find?_cons_of_pos _ ha] at h; cases h
    · rw [List.find?_cons_of_neg _ (by simpa using ha)] at h
      rw [List.cons_append, List.find?_cons_of_neg _ (by simpa using ha)]
      exact ih l2 h

/-- The search `find?` keeps an answer found in the prefix. -/
theorem find?_append_some (p : String × String → Bool) :
    ∀ (l1 l2 : List (String × String)) (a : String × String), l1.find? p = some a →
    (l1 ++ l2).find? p = some a := by
  intro l1
  induction l1 with
  | nil => intro l2 a h; cases h
  | cons b l1 ih =>
    intro l2 a h
    by_cases hb : p b = true
    · rw [List.find?_cons_of_pos _ hb] at h
      rw [List.cons_append, List.find?_cons_of_pos _ hb]
      exact h
    · rw [List.find?_cons_of_neg _ (by simpa using hb)] at h
      rw [List.cons_append, List.find?_cons_of_neg _ (by simpa using hb)]
      exact ih l2 a h

/-- Looking up the just-assigned key finds the new value. -/
theorem dictInsert_find_self (d : List (String × String)) (u t : String) :
    (dictInsert d u t).find? (fun p => p.1 == u) = some (u, t) := by
  unfold dictInsert
  by_cases hany : d.any (fun p => p.1 == u) = true
  · rw [if_pos hany]
    induction d with
    | nil => cases hany
    | cons a d2 ih =>
      by_cases ha : a.1 = u
      · rw [List.map_cons, if_pos (by simp [ha])]
        exact List.find?_cons_of_pos _ (by simp)
      · rw [List.map_cons, if_neg (by simp [ha])]
        rw [List.find?_cons_of_neg _ (by simp [ha])]
        refine ih ?_
        rw [List.any_cons] at hany
        rcases Bool.or_eq_true_iff.mp hany with h1 | h1
        · exact absurd (by simpa using h1) ha
        · exact h1
  · rw [if_neg hany]
    have hnone : d.find? (fun p => p.1 == u) = none := by
      rw [List.find?_eq_none]
      intro q hq
      simp only [List.any_eq_true, not_exists, not_and] at hany
      simp [Bool.eq_false_iff]
      intro he
      exact absurd (by simp [he] : (q.1 == u) = true) (by simp [hany q hq])
    rw [find?_append_none _ d [(u, t)] hnone]
    exact List.find?_cons_of_pos _ (by simp)

/-- Inserting one key leaves lookups of other keys unchanged. -/
theorem dictInsert_find_other (d : List (String × String)) (u t v : String)
    (hne : v ≠ u) :
    (dictInsert d u t).find? (fun p => p.1 == v) = d.find? (fun p => p.1 == v) := by
  unfold dictInsert
  by_cases hany : d.any (fun p => p.1 == u) = true
  · rw [if_pos hany]
    clear hany
    induction d with
    | nil => rfl
    | cons a d2 ih =>
      by_cases ha : a.1 = u
      · rw [List.map_cons, if_pos (by simp [ha])]
        rw [List.find?_cons_of_neg _ (by simp [Ne.symm hne])]
        rw [List.find?_cons_of_neg _ (by simp [ha, Ne.symm hne])]
        exact ih
      · rw [List.map_cons, if_neg (by simp [ha])]
        by_cases hav : a.1 = v
        · rw [List.find?_cons_of_pos _ (by simp [hav]),
            List.find?_cons_of_pos _ (by simp [hav])]
        · rw [List.find?_cons_of_neg _ (by simp [hav]),
            List.find?_cons_of_neg _ (by simp [hav])]
          exact ih
  · rw [if_neg hany]
    cases hf : d.find? (fun p => p.1 == v) with
    | some a => exact find?_append_some _ d [(u, t)] a hf
    | none =>
      rw [find?_append_none _ d [(u, t)] hf]
      exact List.find?_cons_of_neg _ (by simp [Ne.symm hne])

/-- One fold step of the dict comprehension. -/
theorem buildAdjust_append (lk : List (String × String)) (q : String × String) :
    buildAdjust (lk ++ [q]) = dictInsert (buildAdjust lk) q.2 q.1 := by
  unfold buildAdjust
  rw [List.foldl_append]
  rfl

/-- Insertion preserves distinctness of keys. -/
theorem dictInsert_keys_nodup (d : List (String × String)) (u t : String)
    (h : (d.map Prod.fst).Nodup) : ((dictInsert d u t).map Prod.fst).Nodup := by
  unfold dictInsert
  by_cases hany : d.any (fun p => p.1 == u) = true
  · rw [if_pos hany]
    have hkeys : ∀ dd : List (String × String),
        (dd.map (fun p => if p.1 == u then (u, t) else p)).map Prod.fst =
          dd.map Prod.fst := by
      intro dd
      induction dd with
      | nil => rfl
      | cons a dd2 ih2 =>
        rw [List.map_cons, List.map_cons, List.map_cons, ih2]
        by_cases ha : a.1 = u
        · rw [if_pos (by simp [ha])]
          rw [show Prod.fst (u, t) = u from rfl, ha]
        · rw [if_neg (by simp [ha])]
    rw [hkeys d]
    exact h
  · rw [if_neg hany]
    rw [List.map_append]
    refine h.append (by simp) ?_
    intro x hx hx2
    simp only [List.map_cons, List.map_nil, List.mem_singleton] at hx2
    subst hx2
    simp only [List.mem_map] at hx
    obtain ⟨p, hp, hpu⟩ := hx
    simp only [List.any_eq_true, not_exists, not_and] at hany
    exact absurd (beq_iff_eq.mpr hpu) (hany p hp)

/-- The inverted dict has distinct keys. -/
theorem buildAdjust_keys_nodup (lk : List (String × String)) :
    ((buildAdjust lk).map Prod.fst).Nodup := by
  induction lk using List.reverseRecOn with
  | nil => simp [buildAdjust]
  | append_singleton lk q ih =>
    rw [buildAdjust_append]
    exact dictInsert_keys_nodup _ _ _ ih

/-- Lookup in the inverted dict is reverse lookup of the last entry with the
given value: later entries overwrite earlier ones. -/
theorem buildAdjust_find (lk : List (String × String)) (v : String) :
    (buildAdjust lk).find? (fun p => p.1 == v) =
      (lk.reverse.find? (fun p => p.2 == v)).map (fun p => (p.2, p.1)) := by
  induction lk using List.reverseRecOn with
  | nil => rfl
  | append_singleton lk q ih =>
    rw [buildAdjust_append]
    rw [show (lk ++ [q]).reverse = q :: lk.reverse by simp]
    by_cases hv : v = q.2
    · subst hv
      rw [dictInsert_find_self]
      rw [List.find?_cons_of_pos _ (by simp)]
      rfl
    · rw [dictInsert_find_other _ _ _ _ hv]
      rw [List.find?_cons_of_neg _ (by simp [Ne.symm hv])]
      exact ih

/-- Every entry of the inverted dict is a swapped entry of the lookup dict. -/
theorem buildAdjust_mem (lk : List (String × String)) (q : String × String)
    (h : q ∈ buildAdjust lk) : (q.2, q.1) ∈ lk := by
  induction lk using List.reverseRecOn with
  | nil => simp [buildAdjust] at h
  | append_singleton lk a ih =>
    rw [buildAdjust_append] at h
    unfold dictInsert at h
    by_cases hany : (buildAdjust lk).any (fun p => p.1 == a.2) = true
    · rw [if_pos hany] at h
      simp only [List.mem_map] at h
      obtain ⟨p, hp, hpq⟩ := h
      by_cases hpa : p.1 = a.2
      · rw [if_pos (by simp [hpa])] at hpq
        rw [← hpq]
        simp
      · rw [if_neg (by simp [hpa])] at hpq
        subst hpq
        exact List.mem_append_left _ (ih hp)
    · rw [if_neg hany] at h
      rcases List.mem_append.mp h with h2 | h2
      · exact List.mem_append_left _ (ih h2)
      · simp only [List.mem_singleton] at h2
        subst h2
        simp

/-- With distinct keys, `find?` of a member key returns that member. -/
theorem find?_of_mem_nodup : ∀ (d : List (String × String)) (p : String × String),
    (d.map Prod.fst).Nodup → p ∈ d → d.find? (fun q => q.1 == p.1) = some p := by
  intro d
  induction d with
  | nil => intro p _ hp; cases hp
  | cons a d2 ih =>
    intro p hnd hp
    cases hp with
    | head => exact List.find?_cons_of_pos _ (by simp)
    | tail _ hmem =>
      have hane : a.1 ≠ p.1 := by
        rw [List.map_cons, List.nodup_cons] at hnd
        intro he
        exact hnd.1 (he ▸ List.mem_map_of_mem Prod.fst hmem)
      rw [List.find?_cons_of_neg _ (by simp [hane])]
      refine ih p ?_ hmem
      rw [List.map_cons, List.nodup_cons] at hnd
      exact hnd.2

/-- Unfolding: equation word with a matching unconsumed entry. -/
theorem tagEquation_cons_hit (w : String) (ws : List String)
    (adj : List (String × String)) (p : String × String)
    (h : adj.find? (fun q => q.1 == w) = some p) :
    tagEquation (w :: ws) adj =
      p.2 :: tagEquation ws (adj.eraseP (fun q => q.1 == w)) := by
  simp [tagEquation, h]

/-- Unfolding: equation word with no matching entry. -/
theorem tagEquation_cons_miss (w : String) (ws : List String)
    (adj : List (String × String)) (h : adj.find? (fun q => q.1 == w) = none) :
    tagEquation (w :: ws) adj = w :: tagEquation ws adj := by
  simp [tagEquation, h]

/-- The equation loop preserves length. -/
theorem tagEquation_len : ∀ (ws : List String) (adj : List (String × String)),
    (tagEquation ws adj).length = ws.length := by
  intro ws
  induction ws with
  | nil => intro adj; rfl
  | cons w ws ih =>
    intro adj
    cases hf : adj.find? (fun q => q.1 == w) with
    | some p => rw [tagEquation_cons_hit w ws adj p hf]; simp [ih]
    | none => rw [tagEquation_cons_miss w ws adj hf]; simp [ih]

/-- With distinct keys, deleting the entry of a key is filtering it out. -/
theorem eraseP_eq_filter_of_nodup : ∀ (d : List (String × String)) (w : String),
    (d.map Prod.fst).Nodup →
    d.eraseP (fun q => q.1 == w) = d.filter (fun q => !(q.1 == w)) := by
  intro d
  induction d with
  | nil => intro w _; rfl
  | cons a d2 ih =>
    intro w hnd
    rw [List.map_cons, List.nodup_cons] at hnd
    by_cases ha : a.1 = w
    · rw [List.eraseP_cons_of_pos (by simp [ha])]
      rw [List.filter_cons_of_neg (by simp [ha])]
      rw [List.filter_eq_self.mpr ?_]
      intro q hq
      simp only [Bool.not_eq_eq_eq_not, Bool.not_true, beq_eq_false_iff_ne]
      intro he
      exact hnd.1 (ha ▸ he ▸ List.mem_map_of_mem Prod.fst hq)
    · rw [List.eraseP_cons_of_neg (by simp [ha])]
      rw [List.filter_cons_of_pos (by simp [ha])]
      rw [ih w hnd.2]

/-- Erasing a consumed key removes exactly that key from the key set. -/
theorem mem_keys_eraseP (d : List (String × String)) (w v : String)
    (hnd : (d.map Prod.fst).Nodup) :
    (v ∈ (d.eraseP (fun q => q.1 == w)).map Prod.fst) ↔
      (v ∈ d.map Prod.fst ∧ v ≠ w) := by
  rw [eraseP_eq_filter_of_nodup d w hnd]
  constructor
  · intro h
    simp only [List.mem_map] at h
    obtain ⟨q, hq, hqv⟩ := h
    rw [List.mem_filter] at hq
    subst hqv
    refine ⟨List.mem_map_of_mem Prod.fst hq.1, ?_⟩
    have h2 := hq.2
    simp only [Bool.not_eq_eq_eq_not, Bool.not_true, beq_eq_false_iff_ne] at h2
    exact h2
  · intro h
    obtain ⟨h1, h2⟩ := h
    simp only [List.mem_map] at h1
    obtain ⟨q, hq, hqv⟩ := h1
    subst hqv
    refine List.mem_map_of_mem Prod.fst ?_
    rw [List.mem_filter]
    refine ⟨hq, ?_⟩
    simp [h2]

/-- Deleting one key leaves lookups of other keys unchanged. -/
theorem find?_eraseP_other : ∀ (d : List (String × String)) (w v : String),
    (d.map Prod.fst).Nodup → v ≠ w →
    (d.eraseP (fun q => q.1 == w)).find? (fun q => q.1 == v) =
      d.find? (fun q => q.1 == v) := by
  intro d
  induction d with
  | nil => intro w v _ _; rfl
  | cons a d2 ih =>
    intro w v hnd hne
    rw [List.map_cons, List.nodup_cons] at hnd
    by_cases haw : a.1 = w
    · rw [List.eraseP_cons_of_pos (by simp [haw])]
      rw [List.find?_cons_of_neg _ (by simp [haw, Ne.symm hne])]
    · rw [List.eraseP_cons_of_neg (by simp [haw])]
      by_cases hav : a.1 = v
      · rw [List.find?_cons_of_pos _ (by simp [hav]),
          List.find?_cons_of_pos _ (by simp [hav])]
      · rw [List.find?_cons_of_neg _ (by simp [hav]),
          List.find?_cons_of_neg _ (by simp [hav])]
        exact ih w v hnd.2 hne

/-- Pointwise description of the equation loop: the word at position `i` is
replaced exactly when it is a key of the inverted dict that did not already
occur earlier in the equation, and then it is replaced by that key's tag. -/
theorem tagEquation_getD : ∀ (es : List String) (adj : List (String × String))
    (i : Nat), (adj.map Prod.fst).Nodup → i < es.length →
    (tagEquation es adj).getD i "" =
      (if es.getD i "" ∈ adj.map Prod.fst ∧ ¬ (es.getD i "" ∈ es.take i) then
        ((adj.find? (fun q => q.1 == es.getD i "")).map Prod.snd).getD (es.getD i "")
      else es.getD i "") := by
  intro es
  induction es with
  | nil => intro adj i _ hi; simp at hi
  | cons w es2 ih =>
    intro adj i hnd hi
    cases i with
    | zero =>
      simp only [List.getD_cons_zero, List.take_zero, List.not_mem_nil,
        not_false_iff, and_true]
      cases hf : adj.find? (fun q => q.1 == w) with
      | some p =>
        rw [tagEquation_cons_hit w es2 adj p hf]
        rw [List.getD_cons_zero]
        have hp : p ∈ adj := List.mem_of_find?_eq_some hf
        have hpk : p.1 = w := by
          have := List.find?_some hf
          simpa using this
        rw [if_pos (hpk ▸ List.mem_map_of_mem Prod.fst hp)]
        rfl
      | none =>
        rw [tagEquation_cons_miss w es2 adj hf]
        rw [List.getD_cons_zero]
        rw [if_neg ?_]
        rw [List.find?_eq_none] at hf
        intro hmem
        simp only [List.mem_map] at hmem
        obtain ⟨q, hq, hqw⟩ := hmem
        exact absurd (beq_iff_eq.mpr hqw) (hf q hq)
    | succ i2 =>
      have hi2 : i2 < es2.length := by simpa using hi
      rw [show (w :: es2).getD (i2 + 1) "" = es2.getD i2 "" from rfl]
      rw [List.take_succ_cons]
      cases hf : adj.find? (fun q => q.1 == w) with
      | some p =>
        rw [tagEquation_cons_hit w es2 adj p hf]
        rw [show (p.2 :: tagEquation es2 (adj.eraseP (fun q => q.1 == w))).getD (i2 + 1) "" =
            (tagEquation es2 (adj.eraseP (fun q => q.1 == w))).getD i2 "" from rfl]
        have hnd2 : ((adj.eraseP (fun q => q.1 == w)).map Prod.fst).Nodup :=
          hnd.sublist ((List.eraseP_sublist adj).map Prod.fst)
        rw [ih (adj.eraseP (fun q => q.1 == w)) i2 hnd2 hi2]
        by_cases hv : es2.getD i2 "" ∈ adj.map Prod.fst ∧
            ¬ (es2.getD i2 "" ∈ w :: es2.take i2)
        · have hvw : es2.getD i2 "" ≠ w := by
            intro he
            exact hv.2 (by rw [he]; exact List.mem_cons_self w _)
          have hv2 : es2.getD i2 "" ∈ (adj.eraseP (fun q => q.1 == w)).map Prod.fst ∧
              ¬ (es2.getD i2 "" ∈ es2.take i2) := by
            refine ⟨(mem_keys_eraseP adj w _ hnd).mpr ⟨hv.1, hvw⟩, ?_⟩
            intro hmem
            exact hv.2 (List.mem_cons_of_mem w hmem)
          rw [if_pos hv2, if_pos hv]
          rw [find?_eraseP_other adj w _ hnd hvw]
        · have hv2 : ¬ (es2.getD i2 "" ∈ (adj.eraseP (fun q => q.1 == w)).map Prod.fst ∧
              ¬ (es2.getD i2 "" ∈ es2.take i2)) := by
            intro hcon
            refine hv ⟨((mem_keys_eraseP adj w _ hnd).mp hcon.1).1, ?_⟩
            intro hmem
            cases List.mem_cons.mp hmem with
            | inl he => exact ((mem_keys_eraseP adj w _ hnd).mp hcon.1).2 he
            | inr hmem2 => exact hcon.2 hmem2
          rw [if_neg hv2, if_neg hv]
      | none =>
        rw [tagEquation_cons_miss w es2 adj hf]
        rw [show (w :: tagEquation es2 adj).getD (i2 + 1) "" =
            (tagEquation es2 adj).getD i2 "" from rfl]
        rw [ih adj i2 hnd hi2]
        have hwkeys : ¬ (w ∈ adj.map Prod.fst) := by
          rw [List.find?_eq_none] at hf
          intro hmem
          simp only [List.mem_map] at hmem
          obtain ⟨q, hq, hqw⟩ := hmem
          exact absurd (beq_iff_eq.mpr hqw) (hf q hq)
        refine (if_congr ?_ rfl rfl).symm
        constructor
        · intro h
          exact ⟨h.1, fun hm => h.2 (List.mem_cons_of_mem w hm)⟩
        · intro h
          refine ⟨h.1, ?_⟩
          intro hm
          cases List.mem_cons.mp hm with
          | inl he => exact hwkeys (he ▸ h.1)
          | inr hm2 => exact h.2 hm2

/-- Every word the equation loop emits is an input word or a dict value. -/
theorem tagEquation_words : ∀ (ws : List String) (adj : List (String × String)),
    ∀ u ∈ tagEquation ws adj, u ∈ ws ∨ u ∈ adj.map Prod.snd := by
  intro ws
  induction ws with
  | nil => intro adj u hu; cases hu
  | cons w ws ih =>
    intro adj u hu
    cases hf : adj.find? (fun q => q.1 == w) with
    | some p =>
      rw [tagEquation_cons_hit w ws adj p hf] at hu
      cases hu with
      | head =>
        exact Or.inr (List.mem_map_of_mem Prod.snd (List.mem_of_find?_eq_some hf))
      | tail _ hmem =>
        rcases ih (adj.eraseP (fun q => q.1 == w)) u hmem with h | h
        · exact Or.inl (List.mem_cons_of_mem w h)
        · refine Or.inr ?_
          simp only [List.mem_map] at h ⊢
          obtain ⟨q, hq, hqu⟩ := h
          exact ⟨q, (List.eraseP_sublist adj).subset hq, hqu⟩
    | none =>
      rw [tagEquation_cons_miss w ws adj hf] at hu
      cases hu with
      | head => exact Or.inl (List.mem_cons_self w ws)
      | tail _ hmem =>
        rcases ih adj u hmem with h | h
        · exact Or.inl (List.mem_cons_of_mem w h)
        · exact Or.inr h

/-! ## Assembly: facts about constructed instances -/

/-- Inversion of a successful construction. -/
theorem mk?_ok_inv (s e : String) (nt : NumberTag)
    (h : NumberTag.mk? s e = .ok nt) :
    nt.original_sentence = _normalize_numbers s ∧
    nt.original_equation = _normalize_numbers e ∧
    ∃ ts, tagSentence (pySplit (_normalize_numbers s)) [] = .ok (ts, nt.lookup_table) ∧
      nt.tagged_sentence = joinWords ts ∧
      nt.tagged_equation = joinWords (tagEquation (pySplit (_normalize_numbers e))
        (buildAdjust nt.lookup_table)) := by
  have hm : (match tagSentence (pySplit (_normalize_numbers s)) [] with
      | Except.error e2 => (Except.error e2 : Except TagError NumberTag)
      | Except.ok (sl, lookup) =>
        Except.ok ⟨_normalize_numbers s, _normalize_numbers e, joinWords sl,
          joinWords (tagEquation (pySplit (_normalize_numbers e)) (buildAdjust lookup)),
          lookup⟩) = Except.ok nt := h
  clear h
  cases hts : tagSentence (pySplit (_normalize_numbers s)) [] with
  | error e2 =>
    rw [hts] at hm
    cases hm
  | ok r =>
    obtain ⟨ts, lk⟩ := r
    rw [hts] at hm
    injection hm with h2
    subst h2
    exact ⟨rfl, rfl, ts, rfl, rfl, rfl⟩

/-- Words of a successfully tagged sentence are nonempty and whitespace-free. -/
theorem tagSentence_goodWords (ws : List String) (acc : List (String × String))
    (ts : List String) (lk : List (String × String))
    (h : tagSentence ws acc = .ok (ts, lk)) (hws : goodWords ws) : goodWords ts := by
  intro u hu
  rcases tagSentence_words ws acc ts lk h u hu with hin | ⟨n, hn⟩
  · exact hws u hin
  · exact tagKey?_good n u hn

/-- Keys of the lookup table of a construction are tags. -/
theorem lookup_keys_tags (ws : List String) (acc : List (String × String))
    (ts : List String) (lk : List (String × String))
    (h : tagSentence ws acc = .ok (ts, lk)) (hacc : KeysOk acc) :
    ∀ p ∈ lk, ∃ n, tagKey? n = some p.1 := by
  intro p hp
  obtain ⟨j, hj⟩ := List.mem_iff_getElem?.mp hp
  exact ⟨j, tagSentence_keysOk ws acc ts lk h hacc j p hj⟩

/-- The empty dict trivially has aligned keys. -/
theorem keysOk_nil : KeysOk [] := by
  intro j p hp
  simp at hp

/-- Keys of the lookup table are distinct. -/
theorem keysOk_nodup (lk : List (String × String)) (h : KeysOk lk) :
    (lk.map Prod.fst).Nodup := by
  rw [List.nodup_iff_injective_get]
  intro a b hab
  rcases a with ⟨i, hi⟩
  rcases b with ⟨j, hj⟩
  simp only [List.length_map] at hi hj
  simp only [List.get_eq_getElem, List.getElem_map] at hab
  have hia : lk[i]? = some lk[i] := by
    rw [List.getElem?_eq_getElem hi]
  have hja : lk[j]? = some lk[j] := by
    rw [List.getElem?_eq_getElem hj]
  have h1 := h i lk[i] hia
  have h2 := h j lk[j] hja
  rw [hab] at h1
  have := tagKey?_inj i j _ h1 h2
  exact Fin.ext this

/-- A successful sentence pass determines the constructed instance. -/
theorem mk?_ok_of_tagSentence (s e : String) (ts : List String)
    (lk : List (String × String))
    (h : tagSentence (pySplit (_normalize_numbers s)) [] = .ok (ts, lk)) :
    NumberTag.mk? s e = .ok ⟨_normalize_numbers s, _normalize_numbers e,
      joinWords ts,
      joinWords (tagEquation (pySplit (_normalize_numbers e)) (buildAdjust lk)),
      lk⟩ := by
  show (match tagSentence (pySplit (_normalize_numbers s)) [] with
    | Except.error e2 => (Except.error e2 : Except TagError NumberTag)
    | Except.ok (sl, lookup) =>
      Except.ok ⟨_normalize_numbers s, _normalize_numbers e, joinWords sl,
        joinWords (tagEquation (pySplit (_normalize_numbers e)) (buildAdjust lookup)),
        lookup⟩) = _
  rw [h]

/-- A failing sentence pass propagates its error out of the constructor. -/
theorem mk?_err_of_tagSentence (s e : String) (er : TagError)
    (h : tagSentence (pySplit (_normalize_numbers s)) [] = .error er) :
    NumberTag.mk? s e = .error er := by
  show (match tagSentence (pySplit (_normalize_numbers s)) [] with
    | Except.error e2 => (Except.error e2 : Except TagError NumberTag)
    | Except.ok (sl, lookup) =>
      Except.ok ⟨_normalize_numbers s, _normalize_numbers e, joinWords sl,
        joinWords (tagEquation (pySplit (_normalize_numbers e)) (buildAdjust lookup)),
        lookup⟩) = _
  rw [h]

/-- With distinct keys, entries are determined by their keys. -/
theorem entries_eq_of_nodup_keys (lk : List (String × String))
    (hnd : (lk.map Prod.fst).Nodup) (p q : String × String)
    (hp : p ∈ lk) (hq : q ∈ lk) (h : p.1 = q.1) : p = q := by
  have h1 := find?_of_mem_nodup lk p hnd hp
  have h2 := find?_of_mem_nodup lk q hnd hq
  rw [h] at h1
  rw [h1] at h2
  injection h2

/-- A value occurring once among the lookup values is found, in reverse order,
at its unique entry. -/
theorem find_value_unique (lk : List (String × String)) (v t : String)
    (hmem : (t, v) ∈ lk) (hcount : (lk.map Prod.snd).count v = 1) :
    lk.reverse.find? (fun p => p.2 == v) = some (t, v) := by
  have hlen : (lk.filter (fun p => p.2 == v)).length = 1 := by
    rw [List.count_eq_countP, List.countP_eq_length_filter] at hcount
    rw [List.filter_map] at hcount
    rw [List.length_map] at hcount
    convert hcount using 2
  obtain ⟨a, ha⟩ := List.length_eq_one.mp hlen
  have hta : (t, v) = a := by
    have : (t, v) ∈ lk.filter (fun p => p.2 == v) :=
      List.mem_filter.mpr ⟨hmem, by simp⟩
    rw [ha] at this
    simpa using this
  subst hta
  cases hfind : lk.reverse.find? (fun p => p.2 == v) with
  | none =>
    rw [List.find?_eq_none] at hfind
    exact absurd (by simp : ((t, v).2 == v) = true)
      (hfind (t, v) (List.mem_reverse.mpr hmem))
  | some q =>
    have hq1 : q ∈ lk := List.mem_reverse.mp (List.mem_of_find?_eq_some hfind)
    have hq2 := List.find?_some hfind
    have : q ∈ lk.filter (fun p => p.2 == v) := List.mem_filter.mpr ⟨hq1, hq2⟩
    rw [ha] at this
    simp only [List.mem_singleton] at this
    rw [this]

/-! ## The claims -/

/-- The instance built from a sentence with two identical numeric words. -/
def nt55 : NumberTag :=
  ⟨"5 5", "5", "<x> <y>", "<y>", [("<x>", "5"), ("<y>", "5")]⟩

/-- Construction `NumberTag("5 5", "5")` allocates one tag per occurrence and the equation
word receives the tag of the later occurrence. -/
theorem nt55_mk : NumberTag.mk? "5 5" "5" = .ok nt55 := rfl

/-- C5: number-format normalization is idempotent: for every string `s`,
`normalize (normalize s) = normalize s`. -/
theorem c5_normalize_idempotent (s : String) :
    _normalize_numbers (_normalize_numbers s) = _normalize_numbers s := by
  rw [normalize_eq_normRe s]
  rw [normalize_eq_normRe (String.mk (normRe s.data))]
  exact congrArg String.mk (normRe_idem s.data)

/-- C2 (amended): construction raises `AlphabetExhausted` exactly when the
count of numeric word OCCURRENCES in the normalized sentence exceeds the
alphabet size 8.  More than 8 distinct numeric words still forces the error
(occurrences are at least the distinct count), but a distinct count within 8
does not prevent it. -/
theorem c2_exhaustion_amended (s e : String) :
    NumberTag.mk? s e = .error .alphabetExhausted ↔
      8 < ((pySplit (_normalize_numbers s)).filter (fun w => pyFloat w)).length := by
  constructor
  · intro h
    by_contra hle
    push_neg at hle
    obtain ⟨ts, lk, hts⟩ := tagSentence_ok_of_le (pySplit (_normalize_numbers s)) []
      (Or.inr (by simpa using hle))
    rw [mk?_ok_of_tagSentence s e ts lk hts] at h
    cases h
  · intro hgt
    exact mk?_err_of_tagSentence s e _
      (tagSentence_err_of_gt _ [] (by simpa using hgt) (by omega))

/-- C2 counterexample: nine occurrences of the single distinct numeric word
`1` have a distinct count of 1 ≤ 8, yet construction raises
`AlphabetExhausted`, refuting the claim that a distinct count within the
alphabet size never raises. -/
theorem c2_exhaustion_cex :
    ((pySplit (_normalize_numbers "1 1 1 1 1 1 1 1 1")).filter
        (fun w => pyFloat w)).dedup.length ≤ 8 ∧
      NumberTag.mk? "1 1 1 1 1 1 1 1 1" "" = .error .alphabetExhausted :=
  ⟨by decide, rfl⟩

/-- C10: tag allocation is per occurrence: on success the lookup table has
exactly one entry per numeric word occurrence of the normalized sentence,
and a ninth occurrence forces the exhaustion error even when fewer than nine
distinct numeric texts occur. -/
theorem c10_per_occurrence (s e : String) :
    (∀ nt : NumberTag, NumberTag.mk? s e = .ok nt →
      nt.lookup_table.length =
        ((pySplit (_normalize_numbers s)).filter (fun w => pyFloat w)).length) ∧
    (8 < ((pySplit (_normalize_numbers s)).filter (fun w => pyFloat w)).length →
      NumberTag.mk? s e = .error .alphabetExhausted) := by
  constructor
  · intro nt h
    obtain ⟨hos, hoe, ts, hts, htag, htageq⟩ := mk?_ok_inv s e nt h
    have := tagSentence_len _ _ _ _ hts
    simpa using this
  · intro hgt
    exact mk?_err_of_tagSentence s e _
      (tagSentence_err_of_gt _ [] (by simpa using hgt) (by omega))

/-- Witness for C10: `NumberTag("5 5", "5")` has two entries for one distinct
numeric text, and nine distinct numeric words exhaust the alphabet. -/
theorem c10_per_occurrence_witness :
    nt55.lookup_table.length =
      ((pySplit (_normalize_numbers "5 5")).filter (fun w => pyFloat w)).length ∧
    NumberTag.mk? "1 2 3 4 5 6 7 8 9" "" = .error .alphabetExhausted :=
  ⟨(c10_per_occurrence "5 5" "5").1 nt55 nt55_mk,
   (c10_per_occurrence "1 2 3 4 5 6 7 8 9" "").2 (by decide)⟩

/-- C8 (amended): a sentence whose normalized form has no numeric words
always constructs successfully with an empty lookup table; when the
normalized sentence is additionally whitespace-canonical (equal to the
single-space join of its words), the masked sentence moreover equals the
original sentence. -/
theorem c8_empty_numeric_amended (s e : String)
    (hnonum : ∀ w ∈ pySplit (_normalize_numbers s), pyFloat w = false) :
    ∃ nt : NumberTag, NumberTag.mk? s e = .ok nt ∧ nt.lookup_table = [] ∧
      (_normalize_numbers s = joinWords (pySplit (_normalize_numbers s)) →
        nt.get_masked.1 = nt.get_originals.1) := by
  have hts := tagSentence_id (pySplit (_normalize_numbers s)) [] hnonum
  refine ⟨_, mk?_ok_of_tagSentence s e _ [] hts, rfl, ?_⟩
  intro hcanon
  show joinWords (pySplit (_normalize_numbers s)) = _normalize_numbers s
  exact hcanon.symm

/-- Witness for C8 on a numeric-free sentence. -/
theorem c8_empty_numeric_witness :
    ∃ nt : NumberTag, NumberTag.mk? "hello world" "" = .ok nt ∧
      nt.lookup_table = [] ∧
      (_normalize_numbers "hello world" =
          joinWords (pySplit (_normalize_numbers "hello world")) →
        nt.get_masked.1 = nt.get_originals.1) :=
  c8_empty_numeric_amended "hello world" "" (by decide)

/-- C8 counterexample: `"a\tb"` has no numeric words and yields an empty
lookup table, but the masked sentence replaces the tab by a single space
while the original keeps it, so `get_masked()[0] ≠ get_originals()[0]`. -/
theorem c8_empty_numeric_cex :
    (pySplit (_normalize_numbers "a\tb")).filter (fun w => pyFloat w) = [] ∧
    (NumberTag.mk? "a\tb" "").map
        (fun nt => (nt.lookup_table, nt.get_masked.1, nt.get_originals.1)) =
      .ok ([], "a b", "a\tb") ∧
    ("a b" : String) ≠ "a\tb" := ⟨rfl, rfl, by decide⟩

/-- C6: no tag appears twice as a key of the lookup table, the j-th key is
the j-th symbol of the fixed alphabet x, y, z, j, q, v, w, r wrapped in
angle brackets, and the values are exactly the numeric words of the
normalized sentence in left-to-right order, so tags follow the order in
which numeric words are found. -/
theorem c6_tag_allocation (s e : String) (nt : NumberTag)
    (h : NumberTag.mk? s e = .ok nt) :
    (nt.lookup_table.map Prod.fst).Nodup ∧
    (∀ (j : Nat) (p : String × String), nt.lookup_table[j]? = some p →
      tagKey? j = some p.1) ∧
    nt.lookup_table.map Prod.snd =
      (pySplit nt.original_sentence).filter (fun w => pyFloat w) := by
  obtain ⟨hos, hoe, ts, hts, htag, htageq⟩ := mk?_ok_inv s e nt h
  have hkeys := tagSentence_keysOk _ _ _ _ hts keysOk_nil
  refine ⟨keysOk_nodup _ hkeys, hkeys, ?_⟩
  have := tagSentence_vals _ _ _ _ hts
  rw [hos]
  simpa using this

/-- Witness for C6 at the doctest instance. -/
theorem c6_tag_allocation_witness :
    exNT.lookup_table.map Prod.snd =
      (pySplit exNT.original_sentence).filter (fun w => pyFloat w) :=
  (c6_tag_allocation _ _ exNT exNT_mk).2.2

/-- C4 counterexample: in `NumberTag("<x> 5", "")` the tag `<x>` is a key of
the lookup table but occurs twice as a word of the tagged sentence, because
the literal input word `<x>` collides with the allocated tag. -/
theorem c4_tag_once_cex :
    (NumberTag.mk? "<x> 5" "").map
        (fun nt => (nt.lookup_table.map Prod.fst,
          (pySplit nt.tagged_sentence).count "<x>")) = .ok (["<x>"], 2) := rfl

/-- C4 (amended): each key of the lookup table occurs exactly once as a
whitespace-delimited word of the tagged sentence, provided no non-numeric
word of the normalized sentence is itself a lookup key. -/
theorem c4_tag_once_amended (s e : String) (nt : NumberTag)
    (h : NumberTag.mk? s e = .ok nt)
    (hcol : ∀ w ∈ pySplit nt.original_sentence, pyFloat w = false →
      ∀ p ∈ nt.lookup_table, p.1 ≠ w) :
    ∀ p ∈ nt.lookup_table, (pySplit nt.tagged_sentence).count p.1 = 1 := by
  obtain ⟨hos, hoe, ts, hts, htag, htageq⟩ := mk?_ok_inv s e nt h
  intro p hp
  have hgood : goodWords ts := tagSentence_goodWords _ _ _ _ hts (pySplit_goodWords _)
  have hsplit : pySplit nt.tagged_sentence = ts := by
    rw [htag]
    exact pySplit_joinWords ts hgood
  rw [hsplit]
  obtain ⟨j, hj⟩ := List.mem_iff_getElem?.mp hp
  have hkeys := tagSentence_keysOk _ _ _ _ hts keysOk_nil
  have hkj := hkeys j p hj
  have hjlt : j < nt.lookup_table.length := by
    by_contra hge
    push_neg at hge
    rw [List.getElem?_eq_none hge] at hj
    cases hj
  refine tagSentence_count_one _ _ _ _ p.1 j hts hkj (by simp) hjlt ?_
  intro w hw hnf
  intro he
  refine hcol w ?_ hnf p hp he.symm
  rw [hos]
  exact hw

/-- Witness for C4 at the doctest instance. -/
theorem c4_tag_once_witness :
    (pySplit exNT.tagged_sentence).count "<x>" = 1 :=
  c4_tag_once_amended _ _ exNT exNT_mk (by decide) ("<x>", "123") (by decide)

/-- C1 counterexample: for the sentence `"a  b"` (double space, zero numeric
words, count ≤ 8) the masked sentence joins with single spaces, so unmasking
cannot restore the double space kept in the original. -/
theorem c1_roundtrip_cex :
    ((pySplit (_normalize_numbers "a  b")).filter (fun w => pyFloat w)).length ≤ 8 ∧
    (NumberTag.mk? "a  b" "").map
        (fun nt => (nt.unmask_sentence nt.get_masked.1, nt.get_originals.1)) =
      .ok ("a b", "a  b") ∧
    ("a b" : String) ≠ "a  b" := ⟨by decide, rfl, by decide⟩

/-- C1 (amended): the unmask round trip
`unmask_sentence(get_masked()[0]) = get_originals()[0]` holds whenever the
normalized sentence is whitespace-canonical (equal to the single-space join
of its words) and no non-numeric word of it equals a lookup key.  (The
original unconditional claim fails on extra whitespace and on literal words
colliding with tags.) -/
theorem c1_roundtrip_amended (s e : String) (nt : NumberTag)
    (h : NumberTag.mk? s e = .ok nt)
    (hcanon : nt.original_sentence = joinWords (pySplit nt.original_sentence))
    (hcol : ∀ w ∈ pySplit nt.original_sentence, pyFloat w = false →
      ∀ p ∈ nt.lookup_table, p.1 ≠ w) :
    nt.unmask_sentence nt.get_masked.1 = nt.get_originals.1 := by
  obtain ⟨hos, hoe, ts, hts, htag, htageq⟩ := mk?_ok_inv s e nt h
  have hgood : goodWords ts := tagSentence_goodWords _ _ _ _ hts (pySplit_goodWords _)
  show nt.unmask_sentence nt.tagged_sentence = nt.original_sentence
  unfold NumberTag.unmask_sentence
  rw [htag, pySplit_joinWords ts hgood]
  have hkeys := tagSentence_keysOk _ _ _ _ hts keysOk_nil
  have hcol2 : ∀ w ∈ pySplit (_normalize_numbers s), pyFloat w = false →
      ∀ p ∈ nt.lookup_table, p.1 ≠ w := by
    intro w hw
    exact hcol w (by rw [hos]; exact hw)
  have hum := tagSentence_unmask _ _ _ _ hts hkeys hcol2
  rw [hum]
  rw [← hos]
  exact hcanon.symm

/-- Witness for C1 at the doctest instance. -/
theorem c1_roundtrip_witness :
    exNT.unmask_sentence exNT.get_masked.1 = exNT.get_originals.1 :=
  c1_roundtrip_amended _ _ exNT exNT_mk (by decide) (by decide)

/-- C9: the masked outputs and every unmask result are single-space joins of
their whitespace-split words (runs collapse, ends trim), while the stored
originals keep the whitespace of the inputs: normalization deletes only dots
and zeros (it is a sublist of the input with identical whitespace). -/
theorem c9_whitespace (s e : String) (nt : NumberTag)
    (h : NumberTag.mk? s e = .ok nt) :
    joinWords (pySplit nt.tagged_sentence) = nt.tagged_sentence ∧
    joinWords (pySplit nt.tagged_equation) = nt.tagged_equation ∧
    (∀ t : String, joinWords (pySplit (nt.unmask_sentence t)) = nt.unmask_sentence t) ∧
    nt.original_sentence.data.filter isPySpace = s.data.filter isPySpace ∧
    nt.original_equation.data.filter isPySpace = e.data.filter isPySpace ∧
    List.Sublist nt.original_sentence.data s.data ∧
    List.Sublist nt.original_equation.data e.data := by
  obtain ⟨hos, hoe, ts, hts, htag, htageq⟩ := mk?_ok_inv s e nt h
  have hgoodts : goodWords ts := tagSentence_goodWords _ _ _ _ hts (pySplit_goodWords _)
  have hvals := tagSentence_vals _ _ _ _ hts
  have hvalgood : ∀ p ∈ nt.lookup_table,
      p.2 ≠ "" ∧ ∀ c ∈ p.2.data, isPySpace c = false := by
    intro p hp
    have hmem : p.2 ∈ nt.lookup_table.map Prod.snd := List.mem_map_of_mem Prod.snd hp
    rw [hvals] at hmem
    simp only [List.map_nil, List.nil_append] at hmem
    exact pySplit_goodWords (_normalize_numbers s) p.2 (List.mem_of_mem_filter hmem)
  have hkeygood : ∀ p ∈ nt.lookup_table,
      p.1 ≠ "" ∧ ∀ c ∈ p.1.data, isPySpace c = false := by
    intro p hp
    obtain ⟨n, hn⟩ := lookup_keys_tags _ _ _ _ hts keysOk_nil p hp
    exact tagKey?_good n p.1 hn
  refine ⟨?_, ?_, ?_, ?_, ?_, ?_, ?_⟩
  · rw [htag]
    exact joinWords_pySplit_joinWords ts hgoodts
  · rw [htageq]
    refine joinWords_pySplit_joinWords _ ?_
    intro u hu
    rcases tagEquation_words _ _ u hu with h1 | h1
    · exact pySplit_goodWords _ u h1
    · simp only [List.mem_map] at h1
      obtain ⟨q, hq, hqu⟩ := h1
      have hmem := buildAdjust_mem _ q hq
      subst hqu
      exact hkeygood (q.2, q.1) hmem
  · intro t
    unfold NumberTag.unmask_sentence
    refine joinWords_pySplit_joinWords _ ?_
    intro u hu
    simp only [List.mem_map] at hu
    obtain ⟨w, hw, hwu⟩ := hu
    subst hwu
    cases hfind : nt.lookup_table.find? (fun p => p.1 == w) with
    | some p =>
      simp only [hfind]
      exact hvalgood p (List.mem_of_find?_eq_some hfind)
    | none =>
      simp only [hfind]
      exact pySplit_goodWords t w hw
  · rw [hos, normalize_eq_normRe]
    exact normRe_filter_space s.data
  · rw [hoe, normalize_eq_normRe]
    exact normRe_filter_space e.data
  · rw [hos, normalize_eq_normRe]
    exact normRe_sublist s.data
  · rw [hoe, normalize_eq_normRe]
    exact normRe_sublist e.data

/-- Witness for C9 at the doctest instance. -/
theorem c9_whitespace_witness :
    joinWords (pySplit exNT.tagged_sentence) = exNT.tagged_sentence :=
  (c9_whitespace _ _ exNT exNT_mk).1

/-- Splitting the tagged equation recovers the word list the equation loop
produced. -/
theorem tagged_equation_split (s e : String) (nt : NumberTag)
    (h : NumberTag.mk? s e = .ok nt) :
    pySplit nt.tagged_equation =
      tagEquation (pySplit nt.original_equation) (buildAdjust nt.lookup_table) := by
  obtain ⟨hos, hoe, ts, hts, htag, htageq⟩ := mk?_ok_inv s e nt h
  have hvals := tagSentence_vals _ _ _ _ hts
  have hkeygood : ∀ p ∈ nt.lookup_table,
      p.1 ≠ "" ∧ ∀ c ∈ p.1.data, isPySpace c = false := by
    intro p hp
    obtain ⟨n, hn⟩ := lookup_keys_tags _ _ _ _ hts keysOk_nil p hp
    exact tagKey?_good n p.1 hn
  rw [htageq, hoe]
  refine pySplit_joinWords _ ?_
  intro u hu
  rcases tagEquation_words _ _ u hu with h1 | h1
  · exact pySplit_goodWords _ u h1
  · simp only [List.mem_map] at h1
    obtain ⟨q, hq, hqu⟩ := h1
    have hmem := buildAdjust_mem _ q hq
    subst hqu
    exact hkeygood (q.2, q.1) hmem

/-- C3: if the text `v` of a sentence number occurs exactly once among the
sentence's numeric words and `(t, v)` is its lookup entry, the first equation
word equal to `v` is replaced by the tag `t`; the entry is consumed, so later
equation words equal to `v` stay literal; and equation words matching no
sentence numeric word always stay literal. -/
theorem c3_equation_consumption (s e : String) (nt : NumberTag)
    (h : NumberTag.mk? s e = .ok nt) (v t : String)
    (hmem : (t, v) ∈ nt.lookup_table)
    (honce : ((pySplit nt.original_sentence).filter (fun w => pyFloat w)).count v = 1) :
    (∀ i : Nat, i < (pySplit nt.original_equation).length →
      (pySplit nt.original_equation).getD i "" = v →
      ¬ (v ∈ (pySplit nt.original_equation).take i) →
      (pySplit nt.tagged_equation).getD i "" = t) ∧
    (∀ i : Nat, i < (pySplit nt.original_equation).length →
      (pySplit nt.original_equation).getD i "" = v →
      v ∈ (pySplit nt.original_equation).take i →
      (pySplit nt.tagged_equation).getD i "" = v) ∧
    (∀ (i : Nat) (w : String), i < (pySplit nt.original_equation).length →
      (pySplit nt.original_equation).getD i "" = w →
      (∀ p ∈ nt.lookup_table, p.2 ≠ w) →
      (pySplit nt.tagged_equation).getD i "" = w) := by
  obtain ⟨hos, hoe, ts, hts, htag, htageq⟩ := mk?_ok_inv s e nt h
  have hnd := buildAdjust_keys_nodup nt.lookup_table
  have hsplit := tagged_equation_split s e nt h
  have hvals := tagSentence_vals _ _ _ _ hts
  have hcnt : (nt.lookup_table.map Prod.snd).count v = 1 := by
    rw [hos] at honce
    rw [hvals]
    simpa using honce
  have hlastfind : nt.lookup_table.reverse.find? (fun p => p.2 == v) = some (t, v) :=
    find_value_unique _ v t hmem hcnt
  have hadjfind : (buildAdjust nt.lookup_table).find? (fun p => p.1 == v) =
      some (v, t) := by
    rw [buildAdjust_find, hlastfind]
    rfl
  have hvkeys : v ∈ (buildAdjust nt.lookup_table).map Prod.fst :=
    List.mem_map_of_mem Prod.fst (List.mem_of_find?_eq_some hadjfind)
  refine ⟨?_, ?_, ?_⟩
  · intro i hi hv hnot
    rw [hsplit, tagEquation_getD _ _ i hnd hi, hv]
    rw [if_pos ⟨hvkeys, hnot⟩]
    rw [hadjfind]
    rfl
  · intro i hi hv hisin
    rw [hsplit, tagEquation_getD _ _ i hnd hi, hv]
    rw [if_neg (by intro hcon; exact hcon.2 hisin)]
  · intro i w hi hw hnotval
    rw [hsplit, tagEquation_getD _ _ i hnd hi, hw]
    rw [if_neg ?_]
    intro hcon
    obtain ⟨hk, _⟩ := hcon
    simp only [List.mem_map] at hk
    obtain ⟨q, hq, hqw⟩ := hk
    have hqlk := buildAdjust_mem _ q hq
    exact hnotval (q.2, q.1) hqlk hqw

/-- Witness for C3: in the doctest instance, `123` occurs once, and the
equation word at index 2 becomes `<x>`. -/
theorem c3_equation_consumption_witness :
    (pySplit exNT.tagged_equation).getD 2 "" = "<x>" :=
  (c3_equation_consumption _ _ exNT exNT_mk "123" "<x>" (by decide) (by decide)).1
    2 (by decide) (by decide) (by decide)

/-- C7: when several sentence numeric words share the text `v`, only the tag
of the textually last occurrence survives in the reverse map: lookup of `v`
yields the last-assigned tag, the tags of earlier same-text entries never
occur among the reverse-map values (so no equation substitution can produce
them), and the first matching equation word receives the last tag. -/
theorem c7_reverse_overwrite (s e : String) (nt : NumberTag)
    (h : NumberTag.mk? s e = .ok nt) (v tl : String)
    (hlast : nt.lookup_table.reverse.find? (fun p => p.2 == v) = some (tl, v)) :
    (buildAdjust nt.lookup_table).find? (fun p => p.1 == v) = some (v, tl) ∧
    (∀ p ∈ nt.lookup_table, p.2 = v → p.1 ≠ tl →
      ∀ q ∈ buildAdjust nt.lookup_table, q.2 ≠ p.1) ∧
    (∀ i : Nat, i < (pySplit nt.original_equation).length →
      (pySplit nt.original_equation).getD i "" = v →
      ¬ (v ∈ (pySplit nt.original_equation).take i) →
      (pySplit nt.tagged_equation).getD i "" = tl) := by
  obtain ⟨hos, hoe, ts, hts, htag, htageq⟩ := mk?_ok_inv s e nt h
  have hnd := buildAdjust_keys_nodup nt.lookup_table
  have hndlk := keysOk_nodup _ (tagSentence_keysOk _ _ _ _ hts keysOk_nil)
  have hsplit := tagged_equation_split s e nt h
  have hadjfind : (buildAdjust nt.lookup_table).find? (fun p => p.1 == v) =
      some (v, tl) := by
    rw [buildAdjust_find, hlast]
    rfl
  refine ⟨hadjfind, ?_, ?_⟩
  · intro p hp hpv hptl q hq hqp
    obtain ⟨q1, q2⟩ := q
    simp only at hqp
    have hfq := find?_of_mem_nodup _ (q1, q2) hnd hq
    have hchar := buildAdjust_find nt.lookup_table q1
    rw [hfq] at hchar
    have hrev : nt.lookup_table.reverse.find? (fun r => r.2 == q1) =
        some (q2, q1) := by
      cases hr : nt.lookup_table.reverse.find? (fun r => r.2 == q1) with
      | none => rw [hr] at hchar; simp at hchar
      | some r =>
        obtain ⟨r1, r2⟩ := r
        rw [hr] at hchar
        simp only [Option.map_some', Option.some.injEq, Prod.mk.injEq] at hchar
        rw [hchar.1, hchar.2]
    have hmemlk : ((q2 : String), q1) ∈ nt.lookup_table :=
      List.mem_reverse.mp (List.mem_of_find?_eq_some hrev)
    have hentry : ((q2 : String), q1) = p :=
      entries_eq_of_nodup_keys _ hndlk (q2, q1) p hmemlk hp hqp
    have hq1v : q1 = v := by
      have h2 := congrArg Prod.snd hentry
      simp only at h2
      rw [h2, hpv]
    subst hq1v
    rw [hadjfind] at hfq
    injection hfq with h3
    have htl : tl = q2 := congrArg Prod.snd h3
    exact hptl (by rw [← hqp, ← htl])
  · intro i hi hv hnot
    have hvkeys : v ∈ (buildAdjust nt.lookup_table).map Prod.fst :=
      List.mem_map_of_mem Prod.fst (List.mem_of_find?_eq_some hadjfind)
    rw [hsplit, tagEquation_getD _ _ i hnd hi, hv]
    rw [if_pos ⟨hvkeys, hnot⟩]
    rw [hadjfind]
    rfl

/-- Witness for C7: in `NumberTag("5 5", "5")` the reverse map sends `5` to
the second tag `<y>`. -/
theorem c7_reverse_overwrite_witness :
    (buildAdjust nt55.lookup_table).find? (fun p => p.1 == "5") =
      some ("5", "<y>") :=
  (c7_reverse_overwrite _ _ nt55 nt55_mk "5" "<y>" (by decide)).1
